import Mathlib

/-!
Verification of the propel notebook transpiler (`website/nb_transpiler.ts`)
and the softmax front-end of `src/tensor.ts`.

The transpiler is a position-preserving source-to-source rewriter built on a
per-character edit index.  We embed the edit index (`SourceChar`, `EditNode`,
`SourceEditor`), the edit operations the two AST walks perform, the walks
themselves over a small statement AST carrying the parser's byte offsets, and
the `transpile` orchestrator.  The parser (acorn) is external: ASTs are inputs,
with offset well-formedness stated as hypotheses where a theorem needs it.

All edits are represented by `EditOp` values applied in the exact order the
visitors issue them; an `EditOp` is interpreted by the `SourceEditor`
operations, which are direct translations of the TypeScript methods.
-/

set_option autoImplicit false

/-- One tagged character of source text (`class SourceChar`): the character,
its position tag, and the originating file tag (`null` becomes `none`). -/
structure SourceChar where
  char : Char
  pos : Option Nat
  file : Option String
deriving DecidableEq, Repr

/-- `type Source = SourceChar[]`. -/
abbrev Source := List SourceChar

/-- `convert(source, file)` on a plain string: tag every character with its
index within the string and the file tag (on a `Source` it is the identity,
which we never need).  Stated on a character list. -/
def convertList (cs : List Char) (file : Option String) : Source :=
  cs.enum.map fun pc => ⟨pc.2, some pc.1, file⟩

/-- `convert` on a Lean string. -/
def convertStr (s : String) (file : Option String) : Source :=
  convertList s.toList file

/-- `class EditNode`: owns one mutable `current` source fragment. -/
structure EditNode where
  current : Source
deriving DecidableEq, Repr

/-- Apply a position-dependent node transformation to every node of the index,
threading the absolute node position starting from `k`.  This is how the
`SourceEditor` methods address `this.index[i]`. -/
def onIdx (f : Nat → EditNode → EditNode) : Nat → List EditNode → List EditNode
  | _, [] => []
  | k, n :: rest => f k n :: onIdx f (k + 1) rest

/-- Node transformation of `SourceEditor.replace(start, end, str)`:
`index[start].replace(str)` and `index[i].clear()` for `start < i < end`. -/
def repFn (a b : Nat) (str : String) (i : Nat) (n : EditNode) : EditNode :=
  if i = a then ⟨convertStr str none⟩
  else if a < i ∧ i < b then ⟨[]⟩
  else n

/-- Node transformation of `SourceEditor.prepend({start}, str)`:
`index[start].prepend(str)`. -/
def preFn (a : Nat) (str : String) (i : Nat) (n : EditNode) : EditNode :=
  if i = a then ⟨convertStr str none ++ n.current⟩ else n

/-- Node transformation of `SourceEditor.append({end}, str)`:
`index[end - 1].append(str)`. -/
def appFn (b : Nat) (str : String) (i : Nat) (n : EditNode) : EditNode :=
  if i = b - 1 then ⟨n.current ++ convertStr str none⟩ else n

/-- `SourceEditor.replace(start, end, str)`. -/
def SourceEditor.replace (idx : List EditNode) (a b : Nat) (str : String) :
    List EditNode :=
  onIdx (repFn a b str) 0 idx

/-- `SourceEditor.prepend({start}, str)`. -/
def SourceEditor.prepend (idx : List EditNode) (a : Nat) (str : String) :
    List EditNode :=
  onIdx (preFn a str) 0 idx

/-- `SourceEditor.append({end}, str)`. -/
def SourceEditor.append (idx : List EditNode) (b : Nat) (str : String) :
    List EditNode :=
  onIdx (appFn b str) 0 idx

/-- The `source` setter: one fresh `EditNode` per character of a nonempty
source, and a single node holding the empty fragment for an empty source. -/
def setSource (s : Source) : List EditNode :=
  if s.length > 0 then s.map fun c => ⟨[c]⟩ else [⟨[]⟩]

/-- The `source` getter: concatenation of all nodes' `current` fragments. -/
def getSource (idx : List EditNode) : Source :=
  (idx.map EditNode.current).flatten

/-- `SourceEditor.text()`: the character readout of the current source. -/
def textIdx (idx : List EditNode) : String :=
  ⟨(getSource idx).map SourceChar.char⟩

/-- `SourceEditor.stratify()` (the index rebuild part): materialize the
current source and assign it back, making one fresh node per character. -/
def stratifyIdx (idx : List EditNode) : List EditNode :=
  setSource (getSource idx)

/-- One pending edit: `rep`/`pre`/`app` record the arguments of the
corresponding `SourceEditor` call. -/
inductive EditOp where
  | rep (start stop : Nat) (str : String)
  | pre (start : Nat) (str : String)
  | app (stop : Nat) (str : String)
deriving DecidableEq, Repr

/-- The node transformation an edit performs at absolute position `i`. -/
def opFn : EditOp → Nat → EditNode → EditNode
  | .rep a b s => repFn a b s
  | .pre a s => preFn a s
  | .app b s => appFn b s

/-- Apply one edit to the whole index. -/
def applyOp (idx : List EditNode) : EditOp → List EditNode
  | .rep a b s => SourceEditor.replace idx a b s
  | .pre a s => SourceEditor.prepend idx a s
  | .app b s => SourceEditor.append idx b s

/-- Apply a list of edits in order. -/
def applyOps (idx : List EditNode) (ops : List EditOp) : List EditNode :=
  ops.foldl applyOp idx

/-- Apply a list of edits to a sub-index whose first node sits at absolute
position `k`. -/
def applyOpsFrom (k : Nat) (ops : List EditOp) (idx : List EditNode) :
    List EditNode :=
  ops.foldl (fun acc op => onIdx (opFn op) k acc) idx

/-- Lowest node position an edit touches. -/
def EditOp.lo : EditOp → Nat
  | .rep a _ _ => a
  | .pre a _ => a
  | .app b _ => b - 1

/-- One past the highest node position an edit touches. -/
def EditOp.hi : EditOp → Nat
  | .rep a b _ => max (a + 1) b
  | .pre a _ => a + 1
  | .app b _ => b

/-- The character readout of one node. -/
def renderNode (n : EditNode) : List Char :=
  n.current.map SourceChar.char

/-- The character readout of a (sub-)index. -/
def renderIdx (idx : List EditNode) : List Char :=
  (idx.map renderNode).flatten

/-- `const importFn = "__import"`. -/
def importFn : String := "__import"

/-- `const globalVar = "__global"`. -/
def globalVar : String := "__global"

/-- An import specifier node as used by the `importVisitors`.
`importSpecifier`  : a named import, with the span of the whole specifier,
                     the end of the `imported` identifier and the start of
                     the `local` identifier (they coincide when no `as`
                     alias is present);
`importDefaultSpecifier` : the span of the specifier and of its `local`
                     identifier;
`importNamespaceSpecifier` : the span and the start of the `local` name. -/
inductive ImportSpec where
  | importSpecifier (start stop importedEnd localStart : Nat)
  | importDefaultSpecifier (start stop localStart localStop : Nat)
  | importNamespaceSpecifier (start stop localStart : Nat)
deriving DecidableEq, Repr

/-- `node.start` of a specifier. -/
def ImportSpec.start : ImportSpec → Nat
  | .importSpecifier s _ _ _ => s
  | .importDefaultSpecifier s _ _ _ => s
  | .importNamespaceSpecifier s _ _ => s

/-- `node.end` of a specifier. -/
def ImportSpec.stop : ImportSpec → Nat
  | .importSpecifier _ e _ _ => e
  | .importDefaultSpecifier _ e _ _ => e
  | .importNamespaceSpecifier _ e _ => e

/-- The edits issued by the per-specifier visitors of `importVisitors`:
`ImportSpecifier` prepends `_:{`, writes `:` over the `as` gap when the
local name differs in position from the imported one, and appends `}`;
`ImportDefaultSpecifier` wraps the local name in `_:{default:` ... `}`;
`ImportNamespaceSpecifier` replaces the `* as ` part with `_:`. -/
def specOps : ImportSpec → List EditOp
  | .importSpecifier st sp impEnd locStart =>
      [.pre st "_:\x7b"] ++
      (if impEnd < locStart then [.rep impEnd locStart ":"] else []) ++
      [.app sp "\x7d"]
  | .importDefaultSpecifier _ _ locStart locStop =>
      [.pre locStart "_:\x7bdefault:", .app locStop "\x7d"]
  | .importNamespaceSpecifier st _ locStart =>
      [.rep st locStart "_:"]

/-- An `ImportDeclaration` node: statement span, specifier list, and the span
of the module source string literal. -/
structure ImportDecl where
  start : Nat
  stop : Nat
  specifiers : List ImportSpec
  srcStart : Nat
  srcStop : Nat
deriving DecidableEq, Repr

/-- The comma loop of the `ImportDeclaration` visitor: for each consecutive
pair of specifiers, `replace(cur.end, spec[i].start, ",")`. -/
def commaOps : ImportSpec → List ImportSpec → List EditOp
  | _, [] => []
  | cur, s :: rest => .rep cur.stop s.start "," :: commaOps s rest

/-- The edits issued by the `ImportDeclaration` visitor (statement-level
rewrites first, then the per-specifier visitors reached through
`walk.base.ImportDeclaration`). -/
def importDeclOps (d : ImportDecl) : List EditOp :=
  match d.specifiers with
  | [] =>
      [.rep d.start d.srcStart ("await " ++ importFn ++ "("),
       .rep d.srcStop d.stop ");"]
  | s0 :: rest =>
      [.rep d.start s0.start "var \x7b"] ++
      commaOps s0 rest ++
      [.rep (rest.getLastD s0).stop d.srcStart
         ("\x7d = \x7b_:await " ++ importFn ++ "("),
       .rep d.srcStop d.stop ")\x7d;"] ++
      ((s0 :: rest).map specOps).flatten

/-- `node.kind` of a variable declaration. -/
inductive VKind where
  | kvar
  | klet
  | kconst
deriving DecidableEq, Repr

/-- The keyword text of a declaration kind. -/
def VKind.str : VKind → String
  | .kvar => "var"
  | .klet => "let"
  | .kconst => "const"

/-- A `VariableDeclarator` node whose binding target is a plain identifier
(the only declarator shape the claims quantify over): declarator span, the
start of the identifier, and whether an initializer is present. -/
structure Declarator where
  start : Nat
  stop : Nat
  idStart : Nat
  init : Bool
deriving DecidableEq, Repr

/-- The per-declarator wrap of the `VariableDeclaration` visitor's loop:
`(` ... `)` around a declarator with an initializer and `(` ... `= undefined)`
around one without. -/
def declInitOps (d : Declarator) : List EditOp :=
  if d.init then [.pre d.start "(", .app d.stop ")"]
  else [.pre d.start "(", .app d.stop "= undefined)"]

/-- All edits issued for one `VariableDeclaration`: when `translate` is set,
first the `VariableDeclarator` visitors reached through `walk.base` prefix
every identifier target with the global object, then the keyword (plus the
character following it, `node.start .. node.start + node.kind.length + 1`) is
replaced by `void (`, each declarator is wrapped, and a final `)` is appended
after the last declarator.  When `translate` is not set nothing is edited. -/
def varDeclOps (kind : VKind) (start : Nat) (decls : List Declarator)
    (translate : Bool) : List EditOp :=
  if translate then
    (decls.map fun d => [.pre d.idStart (globalVar ++ ".")]).flatten ++
    [.rep start (start + kind.str.length + 1) "void ("] ++
    (decls.map declInitOps).flatten ++
    (match decls.getLast? with
     | some dl => [.app dl.stop ")"]
     | none => [])
  else []

/-- The edits of the `FunctionDeclaration` visitor of `evalScopeVisitors`:
`void (<globalVar>.<name>=` before the declaration and `);` after it; the
function body is never walked. -/
def funcDeclOps (start stop : Nat) (name : String) : List EditOp :=
  [.pre start ("void (" ++ globalVar ++ "." ++ name ++ "="),
   .app stop ");"]

/-- The edits of the `ClassDeclaration` visitor of `evalScopeVisitors`: only
when the declaration's direct parent is the wrapper body, `<globalVar>.<name>=`
is prepended and `);` appended (note: no opening parenthesis is emitted). -/
def classDeclOps (start stop : Nat) (name : String) (topLevel : Bool) :
    List EditOp :=
  if topLevel then
    [.pre start (globalVar ++ "." ++ name ++ "="), .app stop ");"]
  else []

/-- A statement node of the wrapper body, with the parser's offsets.
`exprStmt` carries the statement span and the end of its expression;
`block` carries its nested statement list.  Expression internals other than
declarator targets never matter to the visitors (function and class bodies
are pruned from both walks), so they are not represented. -/
inductive JStmt where
  | importStmt (d : ImportDecl)
  | varStmt (kind : VKind) (start stop : Nat) (decls : List Declarator)
  | funcStmt (start stop : Nat) (name : String)
  | classStmt (start stop : Nat) (name : String)
  | exprStmt (start stop exprStop : Nat)
  | block (start stop : Nat) (body : List JStmt)

mutual

/-- Decidable equality on statements (the derive handler does not support the
nesting through `List JStmt`). -/
def JStmt.decEq : (a b : JStmt) → Decidable (a = b)
  | .importStmt d1, .importStmt d2 =>
      if h : d1 = d2 then .isTrue (by rw [h]) else .isFalse (by intro hh; injection hh; contradiction)
  | .varStmt k1 a1 b1 d1, .varStmt k2 a2 b2 d2 =>
      if h : k1 = k2 ∧ a1 = a2 ∧ b1 = b2 ∧ d1 = d2 then
        .isTrue (by rw [h.1, h.2.1, h.2.2.1, h.2.2.2])
      else .isFalse (by intro hh; injection hh; exact h ⟨by assumption, by assumption, by assumption, by assumption⟩)
  | .funcStmt a1 b1 n1, .funcStmt a2 b2 n2 =>
      if h : a1 = a2 ∧ b1 = b2 ∧ n1 = n2 then .isTrue (by rw [h.1, h.2.1, h.2.2])
      else .isFalse (by intro hh; injection hh; exact h ⟨by assumption, by assumption, by assumption⟩)
  | .classStmt a1 b1 n1, .classStmt a2 b2 n2 =>
      if h : a1 = a2 ∧ b1 = b2 ∧ n1 = n2 then .isTrue (by rw [h.1, h.2.1, h.2.2])
      else .isFalse (by intro hh; injection hh; exact h ⟨by assumption, by assumption, by assumption⟩)
  | .exprStmt a1 b1 e1, .exprStmt a2 b2 e2 =>
      if h : a1 = a2 ∧ b1 = b2 ∧ e1 = e2 then .isTrue (by rw [h.1, h.2.1, h.2.2])
      else .isFalse (by intro hh; injection hh; exact h ⟨by assumption, by assumption, by assumption⟩)
  | .block a1 b1 s1, .block a2 b2 s2 =>
      match JStmt.decEqList s1 s2 with
      | .isTrue h3 =>
          if h : a1 = a2 ∧ b1 = b2 then .isTrue (by rw [h.1, h.2, h3])
          else .isFalse (by intro hh; injection hh; exact h ⟨by assumption, by assumption⟩)
      | .isFalse h3 => .isFalse (by intro hh; injection hh; contradiction)
  | .importStmt _, .varStmt _ _ _ _ => .isFalse nofun
  | .importStmt _, .funcStmt _ _ _ => .isFalse nofun
  | .importStmt _, .classStmt _ _ _ => .isFalse nofun
  | .importStmt _, .exprStmt _ _ _ => .isFalse nofun
  | .importStmt _, .block _ _ _ => .isFalse nofun
  | .varStmt _ _ _ _, .importStmt _ => .isFalse nofun
  | .varStmt _ _ _ _, .funcStmt _ _ _ => .isFalse nofun
  | .varStmt _ _ _ _, .classStmt _ _ _ => .isFalse nofun
  | .varStmt _ _ _ _, .exprStmt _ _ _ => .isFalse nofun
  | .varStmt _ _ _ _, .block _ _ _ => .isFalse nofun
  | .funcStmt _ _ _, .importStmt _ => .isFalse nofun
  | .funcStmt _ _ _, .varStmt _ _ _ _ => .isFalse nofun
  | .funcStmt _ _ _, .classStmt _ _ _ => .isFalse nofun
  | .funcStmt _ _ _, .exprStmt _ _ _ => .isFalse nofun
  | .funcStmt _ _ _, .block _ _ _ => .isFalse nofun
  | .classStmt _ _ _, .importStmt _ => .isFalse nofun
  | .classStmt _ _ _, .varStmt _ _ _ _ => .isFalse nofun
  | .classStmt _ _ _, .funcStmt _ _ _ => .isFalse nofun
  | .classStmt _ _ _, .exprStmt _ _ _ => .isFalse nofun
  | .classStmt _ _ _, .block _ _ _ => .isFalse nofun
  | .exprStmt _ _ _, .importStmt _ => .isFalse nofun
  | .exprStmt _ _ _, .varStmt _ _ _ _ => .isFalse nofun
  | .exprStmt _ _ _, .funcStmt _ _ _ => .isFalse nofun
  | .exprStmt _ _ _, .classStmt _ _ _ => .isFalse nofun
  | .exprStmt _ _ _, .block _ _ _ => .isFalse nofun
  | .block _ _ _, .importStmt _ => .isFalse nofun
  | .block _ _ _, .varStmt _ _ _ _ => .isFalse nofun
  | .block _ _ _, .funcStmt _ _ _ => .isFalse nofun
  | .block _ _ _, .classStmt _ _ _ => .isFalse nofun
  | .block _ _ _, .exprStmt _ _ _ => .isFalse nofun

/-- Decidable equality on statement lists. -/
def JStmt.decEqList : (a b : List JStmt) → Decidable (a = b)
  | [], [] => .isTrue rfl
  | [], _ :: _ => .isFalse nofun
  | _ :: _, [] => .isFalse nofun
  | x :: xs, y :: ys =>
      match JStmt.decEq x y, JStmt.decEqList xs ys with
      | .isTrue h1, .isTrue h2 => .isTrue (by rw [h1, h2])
      | .isFalse h1, _ => .isFalse (by intro hh; injection hh; contradiction)
      | _, .isFalse h2 => .isFalse (by intro hh; injection hh; contradiction)

end

instance : DecidableEq JStmt := JStmt.decEq

mutual

/-- The walk of `importVisitors` (statement part): `ImportDeclaration` issues
its edits, blocks are descended through `walk.base`, `FunctionDeclaration` is
a `noop` (no descent), and no other statement kind issues edits. -/
def importStmtWalk : JStmt → List EditOp
  | .importStmt d => importDeclOps d
  | .block _ _ stmts => importListWalk stmts
  | .varStmt _ _ _ _ => []
  | .funcStmt _ _ _ => []
  | .classStmt _ _ _ => []
  | .exprStmt _ _ _ => []

def importListWalk : List JStmt → List EditOp
  | [] => []
  | s :: rest => importStmtWalk s ++ importListWalk rest
end

/-- One record per `VariableDeclaration` reached by the scope walk: its kind
and declarators, the ancestor chain from the walk root down to its direct
parent, and the `translateDecl` decision taken for it. -/
structure DeclVisit where
  kind : VKind
  decls : List Declarator
  anc : List JStmt
  translated : Bool
deriving DecidableEq

mutual

/-- The walk of `evalScopeVisitors` with ancestor tracking
(`walkRecursiveWithAncestors`).  `scopeStmt body anc s` visits `s` whose
ancestor chain (walk root first, direct parent last) is `anc`; `body` is
`state.body`, the wrapper body the walk starts at.  It returns the edits in
issue order together with the trace of variable-declaration visits.
`translateDecl` is `node.kind === "var" || ancestors[ancestors.length - 2]
=== state.body`: the direct parent is the last element of `anc`. -/
def scopeStmt (body : JStmt) (anc : List JStmt) : JStmt → List EditOp × List DeclVisit
  | .importStmt _ => ([], [])
  | .varStmt k st _ ds =>
      let tr : Bool := k == VKind.kvar || anc.getLast? == some body
      (varDeclOps k st ds tr, [⟨k, ds, anc, tr⟩])
  | .funcStmt st sp nm => (funcDeclOps st sp nm, [])
  | .classStmt st sp nm =>
      (classDeclOps st sp nm (anc.getLast? == some body), [])
  | .exprStmt _ _ _ => ([], [])
  | .block st sp stmts =>
      scopeList body (anc ++ [JStmt.block st sp stmts]) stmts

def scopeList (body : JStmt) (anc : List JStmt) : List JStmt → List EditOp × List DeclVisit
  | [] => ([], [])
  | s :: rest =>
      let r1 := scopeStmt body anc s
      let r2 := scopeList body anc rest
      (r1.1 ++ r2.1, r1.2 ++ r2.2)
end

/-- The trailing-expression rewrite of `transpile`: when the wrapper body is
nonempty and its last statement is an `ExpressionStatement`, prepend
`return (` to the statement and append `)` to its expression. -/
def finalOps : JStmt → List EditOp
  | .block _ _ stmts =>
      match stmts.getLast? with
      | some (.exprStmt st _ est) => [.pre st "return (", .app est ")"]
      | _ => []
  | _ => []

/-- The async wrapper of `transpile`:
`(async (<globalVar>, <importFn>, console) => \x7b\n<src>\n\x7d)`. -/
def wrapSrc (src : String) : String :=
  "(async (" ++ globalVar ++ ", " ++ importFn ++ ", console) => \x7b\n" ++
  src ++ "\n\x7d)"

/-- `transpile(src)`.  The two parses are external (acorn): `body1` is the
wrapper body of the parse of the wrapped source and `body2` of the re-parse
after the import pass; the theorems that use `transpile` state the agreement
of these ASTs with the text as hypotheses. -/
def transpile (src : String) (body1 body2 : JStmt) : String :=
  let wrapped := wrapSrc src
  let e0 := setSource (convertStr wrapped none)
  let e1 := applyOps e0 (importStmtWalk body1)
  let e2 := stratifyIdx e1
  let e3 := applyOps e2 (scopeStmt body2 [] body2).1
  let e4 := applyOps e3 (finalOps body2)
  textIdx e4

mutual

/-- `true` when no `ImportDeclaration` occurs anywhere the import walk
reaches (function bodies are pruned by the walk, so statements inside them
do not occur in this AST in the first place). -/
def importFree : JStmt → Bool
  | .importStmt _ => false
  | .block _ _ stmts => importFreeList stmts
  | .varStmt _ _ _ _ => true
  | .funcStmt _ _ _ => true
  | .classStmt _ _ _ => true
  | .exprStmt _ _ _ => true

/-- `importFree` over a statement list. -/
def importFreeList : List JStmt → Bool
  | [] => true
  | s :: rest => importFree s && importFreeList rest
end

mutual

/-- `true` when no `var`/`let`/`const`/`function`/`class` declaration occurs
anywhere the scope walk reaches. -/
def declFree : JStmt → Bool
  | .importStmt _ => true
  | .block _ _ stmts => declFreeList stmts
  | .varStmt _ _ _ _ => false
  | .funcStmt _ _ _ => false
  | .classStmt _ _ _ => false
  | .exprStmt _ _ _ => true

/-- `declFree` over a statement list. -/
def declFreeList : List JStmt → Bool
  | [] => true
  | s :: rest => declFree s && declFreeList rest
end

/-- A tensor of the front-end, reduced to what the softmax policy inspects:
its shape. -/
structure Tensor where
  shape : List Nat
deriving DecidableEq, Repr

/-- `Tensor.rank`: the length of the shape. -/
def Tensor.rank (t : Tensor) : Nat := t.shape.length

/-- Modelled from the spec: `ops.reshape` is not under `src/` (the operator
library is an external collaborator per the spec, "the numeric
tensor/operator library and its execution backend" is out of scope); its
doc in `tensor.ts` says "Reshapes the tensor without changing its data", so
we model it at shape level, resolving a `-1` entry to whatever preserves the
element count. -/
def Tensor.reshape (t : Tensor) (newShape : List Int) : Tensor :=
  let numel := t.shape.foldl (· * ·) 1
  let known := (newShape.filter (· ≠ -1)).foldl (fun a d => a * d.toNat) 1
  ⟨newShape.map fun d => if d = -1 then numel / known else d.toNat⟩

/-- `softmaxHelper(t, axis, op)` from `tensor.ts`.  The underlying op
(`ops.softmax` / `ops.logSoftmax`) is a parameter exactly as in the source;
it receives the axis argument only on the rank-2 fast path (`op(t, axis)`
versus `op(t.reshape([-1, numClasses]))`), hence the `Option Int` argument.
A thrown `Error` is an `Except.error` carrying the message. -/
def softmaxHelper (t : Tensor) (axis : Int)
    (op : Tensor → Option Int → Tensor) : Except String Tensor :=
  if axis ≠ -1 then
    Except.error "Softmax along a non-last axis is not yet supported."
  else if t.rank = 2 then
    Except.ok (op t (some axis))
  else
    let origShape := t.shape
    let numClasses := t.shape.getD (t.rank - 1) 0
    let result := op (t.reshape [-1, Int.ofNat numClasses]) none
    Except.ok (result.reshape (origShape.map Int.ofNat))

/-- `Tensor.softmax(axis)`: delegates to `softmaxHelper` with `ops.softmax`,
which stays a parameter (it is external code). -/
def Tensor.softmax (opSoftmax : Tensor → Option Int → Tensor) (t : Tensor)
    (axis : Int) : Except String Tensor :=
  softmaxHelper t axis opSoftmax

/-- One chunk of a translated variable declaration's declarator chain: the
declarator node, the edit nodes of its span, and the edit nodes between its
end and the next declarator's start (for the last declarator: everything up
to the end of the statement, e.g. the semicolon). -/
abbrev DeclItem := Declarator × List EditNode × List EditNode

/-- Offsets of a declarator chain agree with the chunk lengths, starting at
absolute position `k`; every declarator starts at its identifier and owns a
nonempty chunk. -/
def declChainWF : Nat → List DeclItem → Prop
  | _, [] => True
  | k, (d, dn, gap) :: rest =>
      d.start = k ∧ d.idStart = k ∧ d.stop = k + dn.length ∧ dn ≠ [] ∧
      declChainWF (d.stop + gap.length) rest

/-- The edit nodes covered by a declarator chain. -/
def declChainNodes : List DeclItem → List EditNode
  | [] => []
  | (_, dn, gap) :: rest => dn ++ gap ++ declChainNodes rest

/-- `node.end` of the last declarator of a chain (the loop variable `decl`
after the visitor's loop). -/
def declChainLastStop : List DeclItem → Nat
  | [] => 0
  | [(d, _, _)] => d.stop
  | _ :: rest => declChainLastStop rest

/-- The identifier-prefix edits of the `VariableDeclarator` visitor, over a
chain. -/
def declIdOps (items : List DeclItem) : List EditOp :=
  (items.map fun it => [EditOp.pre it.1.idStart (globalVar ++ ".")]).flatten

/-- The per-declarator wraps of the `VariableDeclaration` loop, over a
chain. -/
def declParenOps (items : List DeclItem) : List EditOp :=
  (items.map fun it => declInitOps it.1).flatten

/-- The readout of one translated declarator: `(<globalVar>.` then the
original declarator text, closed by `)` (initializer present) or
`= undefined)` (absent), plus the extra trailing `)` on the last
declarator. -/
def declRenderOne (isLast : Bool) (d : Declarator) (dn : List EditNode) :
    List Char :=
  ("(").toList ++ (globalVar ++ ".").toList ++ renderIdx dn ++
  (if d.init then ")" else "= undefined)").toList ++
  (if isLast then (")").toList else [])

/-- The readout of a whole translated declarator chain (gaps between
declarators — commas, whitespace, the trailing semicolon — unchanged). -/
def declChainRender : List DeclItem → List Char
  | [] => []
  | [(d, dn, gap)] => declRenderOne true d dn ++ renderIdx gap
  | (d, dn, gap) :: rest => declRenderOne false d dn ++ renderIdx gap ++
      declChainRender rest

/-- One chunk of an import statement's specifier chain: the specifier node,
the edit nodes of its span, and the edit nodes between its end and the next
specifier's start (for the last specifier: up to the module string's
start). -/
abbrev SpecItem := ImportSpec × List EditNode × List EditNode

/-- Offsets of a specifier chain agree with chunk lengths from `k` up to `m`
(the module string's start); each specifier owns a nonempty chunk, each gap
is nonempty, and each specifier's own edits stay inside its span. -/
def specChainWF : Nat → List SpecItem → Nat → Prop
  | k, [], m => k = m
  | k, (s, sn, gap) :: rest, m =>
      s.start = k ∧ s.stop = k + sn.length ∧ sn ≠ [] ∧ gap ≠ [] ∧
      (∀ op ∈ specOps s, s.start ≤ op.lo ∧ op.hi ≤ s.stop ∧ op.lo < op.hi) ∧
      specChainWF (s.stop + gap.length) rest m

/-- The edit nodes covered by a specifier chain. -/
def specChainNodes : List SpecItem → List EditNode
  | [] => []
  | (_, sn, gap) :: rest => sn ++ gap ++ specChainNodes rest

/-- `node.end` of the last specifier of a chain. -/
def specChainLastStop : List SpecItem → Nat
  | [] => 0
  | [(s, _, _)] => s.stop
  | _ :: rest => specChainLastStop rest

/-- The comma edits of the `ImportDeclaration` visitor's loop, over a
chain. -/
def commaOpsChain : List SpecItem → List EditOp
  | [] => []
  | (s, _, _) :: rest => commaOps s (rest.map fun it => it.1)

/-- The per-specifier edits, over a chain. -/
def specOpsChain (items : List SpecItem) : List EditOp :=
  (items.map fun it => specOps it.1).flatten

/-- The binding text one rewritten specifier contributes: its chunk readout
after its own visitor's edits. -/
def specRender (s : ImportSpec) (sn : List EditNode) : List Char :=
  renderIdx (applyOpsFrom s.start (specOps s) sn)

/-- The binding texts of a whole chain. -/
def specChainRenders : List SpecItem → List (List Char)
  | [] => []
  | (s, sn, _) :: rest => specRender s sn :: specChainRenders rest

/-- `true` when no direct child of the wrapper body is a
`var`/`let`/`const`/`function`/`class` declaration (the spec's notion of a
cell with no top-level declarations; statements nested in blocks are not
consulted). -/
def topLevelDeclFree (stmts : List JStmt) : Bool :=
  stmts.all fun s =>
    match s with
    | .varStmt _ _ _ _ => false
    | .funcStmt _ _ _ => false
    | .classStmt _ _ _ => false
    | _ => true

theorem convertList_map_char (cs : List Char) (f : Option String) :
    (convertList cs f).map SourceChar.char = cs := by
  simp [convertList, List.map_map, Function.comp_def]

theorem convertStr_map_char (s : String) (f : Option String) :
    (convertStr s f).map SourceChar.char = s.toList :=
  convertList_map_char s.toList f

theorem onIdx_length (f : Nat → EditNode → EditNode) :
    ∀ (k : Nat) (L : List EditNode), (onIdx f k L).length = L.length
  | _, [] => rfl
  | k, _ :: rest => by simp [onIdx, onIdx_length f (k + 1) rest]

theorem onIdx_append (f : Nat → EditNode → EditNode) :
    ∀ (k : Nat) (A B : List EditNode),
      onIdx f k (A ++ B) = onIdx f k A ++ onIdx f (k + A.length) B
  | _, [], _ => by simp [onIdx]
  | k, n :: rest, B => by
    have ih := onIdx_append f (k + 1) rest B
    have harith : k + 1 + rest.length = k + (rest.length + 1) := by omega
    rw [harith] at ih
    simp only [List.cons_append, onIdx, List.length_cons, List.append_eq, ih]

theorem onIdx_congr_id (f : Nat → EditNode → EditNode) :
    ∀ (k : Nat) (L : List EditNode),
      (∀ i n, k ≤ i → i < k + L.length → f i n = n) → onIdx f k L = L
  | _, [], _ => rfl
  | k, n :: rest, h => by
    simp only [onIdx]
    rw [h k n le_rfl (by simp only [List.length_cons]; omega),
      onIdx_congr_id f (k + 1) rest (fun i m h1 h2 => h i m (by omega)
        (by simp only [List.length_cons]; omega))]

theorem onIdx_getElem? (f : Nat → EditNode → EditNode) :
    ∀ (k : Nat) (L : List EditNode) (i : Nat),
      (onIdx f k L)[i]? = L[i]?.map (f (k + i))
  | _, [], i => by simp [onIdx]
  | k, n :: rest, 0 => by simp [onIdx]
  | k, n :: rest, i + 1 => by
    simp only [onIdx, List.getElem?_cons_succ]
    rw [onIdx_getElem? f (k + 1) rest i]
    have : k + 1 + i = k + (i + 1) := by omega
    rw [this]

theorem renderIdx_nil : renderIdx [] = [] := rfl

theorem renderIdx_cons (n : EditNode) (L : List EditNode) :
    renderIdx (n :: L) = renderNode n ++ renderIdx L := by
  simp [renderIdx]

theorem renderIdx_append (A B : List EditNode) :
    renderIdx (A ++ B) = renderIdx A ++ renderIdx B := by
  simp [renderIdx]

theorem renderNode_mk_convert (str : String) :
    renderNode ⟨convertStr str none⟩ = str.toList := by
  simp [renderNode, convertStr_map_char]

theorem renderNode_mk_convert_append (str : String) (c : Source) :
    renderNode ⟨convertStr str none ++ c⟩ = str.toList ++ c.map SourceChar.char := by
  simp [renderNode, convertStr_map_char]

theorem renderNode_mk_append_convert (c : Source) (str : String) :
    renderNode ⟨c ++ convertStr str none⟩ = c.map SourceChar.char ++ str.toList := by
  simp [renderNode, convertStr_map_char]

theorem opFn_id_of_lt_lo (op : EditOp) (i : Nat) (n : EditNode)
    (h : i < op.lo) : opFn op i n = n := by
  cases op with
  | rep a b s =>
    simp only [EditOp.lo] at h
    have h1 : i ≠ a := by omega
    have h2 : ¬ (a < i ∧ i < b) := by omega
    simp [opFn, repFn, h1, h2]
  | pre a s =>
    simp only [EditOp.lo] at h
    simp [opFn, preFn, Nat.ne_of_lt h]
  | app b s =>
    simp only [EditOp.lo] at h
    simp [opFn, appFn, Nat.ne_of_lt h]

theorem opFn_id_of_le_hi (op : EditOp) (i : Nat) (n : EditNode)
    (hlh : op.lo < op.hi) (h : op.hi ≤ i) : opFn op i n = n := by
  cases op with
  | rep a b s =>
    simp only [EditOp.hi] at h
    have h1 : i ≠ a := by omega
    have h2 : ¬ (a < i ∧ i < b) := by omega
    simp [opFn, repFn, h1, h2]
  | pre a s =>
    simp only [EditOp.hi] at h
    simp [opFn, preFn, Nat.ne_of_gt (by omega : a < i)]
  | app b s =>
    simp only [EditOp.lo, EditOp.hi] at hlh h
    simp [opFn, appFn, Nat.ne_of_gt (by omega : b - 1 < i)]

theorem onIdx_opFn_id_left (op : EditOp) (k : Nat) (L : List EditNode)
    (h : k + L.length ≤ op.lo) : onIdx (opFn op) k L = L :=
  onIdx_congr_id _ _ _ fun i n h1 h2 => opFn_id_of_lt_lo op i n (by omega)

theorem onIdx_opFn_id_right (op : EditOp) (k : Nat) (L : List EditNode)
    (hlh : op.lo < op.hi) (h : op.hi ≤ k) : onIdx (opFn op) k L = L :=
  onIdx_congr_id _ _ _ fun i n h1 h2 => opFn_id_of_le_hi op i n hlh (by omega)

theorem applyOpsFrom_nil (k : Nat) (L : List EditNode) :
    applyOpsFrom k [] L = L := rfl

theorem applyOpsFrom_cons (k : Nat) (op : EditOp) (ops : List EditOp)
    (L : List EditNode) :
    applyOpsFrom k (op :: ops) L = applyOpsFrom k ops (onIdx (opFn op) k L) := rfl

theorem applyOp_eq_onIdx (idx : List EditNode) (op : EditOp) :
    applyOp idx op = onIdx (opFn op) 0 idx := by
  cases op <;> rfl

theorem applyOps_eq_applyOpsFrom (idx : List EditNode) (ops : List EditOp) :
    applyOps idx ops = applyOpsFrom 0 ops idx := by
  induction ops generalizing idx with
  | nil => rfl
  | cons op ops ih =>
    rw [applyOps, List.foldl_cons, applyOp_eq_onIdx, applyOpsFrom_cons]
    exact ih _

theorem applyOpsFrom_length (k : Nat) (ops : List EditOp) (L : List EditNode) :
    (applyOpsFrom k ops L).length = L.length := by
  induction ops generalizing L with
  | nil => rfl
  | cons op ops ih => rw [applyOpsFrom_cons, ih, onIdx_length]

theorem applyOpsFrom_id (k : Nat) (ops : List EditOp) (L : List EditNode)
    (h : ∀ op ∈ ops, op.lo < op.hi ∧ (op.hi ≤ k ∨ k + L.length ≤ op.lo)) :
    applyOpsFrom k ops L = L := by
  induction ops with
  | nil => rfl
  | cons op ops ih =>
    obtain ⟨hlh, hd⟩ := h op (List.mem_cons_self op ops)
    rw [applyOpsFrom_cons]
    rw [show onIdx (opFn op) k L = L from ?_]
    · exact ih fun o ho => h o (List.mem_cons_of_mem op ho)
    · rcases hd with hd | hd
      · exact onIdx_opFn_id_right op k L hlh hd
      · exact onIdx_opFn_id_left op k L hd

theorem applyOpsFrom_split (k : Nat) :
    ∀ (ops : List EditOp) (A B : List EditNode),
      (∀ op ∈ ops, op.lo < op.hi ∧
        (op.hi ≤ k + A.length ∨ k + A.length ≤ op.lo)) →
      applyOpsFrom k ops (A ++ B) =
        applyOpsFrom k (ops.filter fun op => decide (op.hi ≤ k + A.length)) A ++
        applyOpsFrom (k + A.length)
          (ops.filter fun op => !decide (op.hi ≤ k + A.length)) B
  | [], A, B, _ => rfl
  | op :: ops, A, B, h => by
    obtain ⟨hlh, hd⟩ := h op (List.mem_cons_self op ops)
    have hops : ∀ o ∈ ops, o.lo < o.hi ∧
        (o.hi ≤ k + A.length ∨ k + A.length ≤ o.lo) :=
      fun o ho => h o (List.mem_cons_of_mem op ho)
    by_cases hc : op.hi ≤ k + A.length
    · rw [applyOpsFrom_cons, onIdx_append,
        onIdx_opFn_id_right op (k + A.length) B hlh hc]
      have ih := applyOpsFrom_split k ops (onIdx (opFn op) k A) B
        (by rw [onIdx_length]; exact hops)
      rw [onIdx_length] at ih
      rw [ih]
      have hfe : (op :: ops).filter (fun o => decide (o.hi ≤ k + A.length)) =
          op :: ops.filter (fun o => decide (o.hi ≤ k + A.length)) := by
        simp [List.filter_cons, hc]
      have hfne : (op :: ops).filter (fun o => !decide (o.hi ≤ k + A.length)) =
          ops.filter (fun o => !decide (o.hi ≤ k + A.length)) := by
        simp [List.filter_cons, hc]
      rw [hfe, hfne, applyOpsFrom_cons]
    · have hlo : k + A.length ≤ op.lo := hd.resolve_left hc
      rw [applyOpsFrom_cons, onIdx_append, onIdx_opFn_id_left op k A hlo]
      have ih := applyOpsFrom_split k ops A (onIdx (opFn op) (k + A.length) B) hops
      rw [ih]
      have hfe : (op :: ops).filter (fun o => decide (o.hi ≤ k + A.length)) =
          ops.filter (fun o => decide (o.hi ≤ k + A.length)) := by
        simp [List.filter_cons, hc]
      have hfne : (op :: ops).filter (fun o => !decide (o.hi ≤ k + A.length)) =
          op :: ops.filter (fun o => !decide (o.hi ≤ k + A.length)) := by
        simp [List.filter_cons, hc]
      rw [hfe, hfne, applyOpsFrom_cons]

theorem rep_clear_render (a b : Nat) (s : String) :
    ∀ (k : Nat) (L : List EditNode), a < k → k + L.length ≤ b →
      renderIdx (onIdx (opFn (.rep a b s)) k L) = []
  | _, [], _, _ => rfl
  | k, n :: rest, h1, h2 => by
    simp only [List.length_cons] at h2
    have hk : opFn (.rep a b s) k n = ⟨[]⟩ := by
      have hne : k ≠ a := by omega
      have hin : a < k ∧ k < b := by omega
      simp [opFn, repFn, hne, hin]
    simp only [onIdx, hk, renderIdx_cons]
    rw [rep_clear_render a b s (k + 1) rest (by omega) (by omega)]
    rfl

theorem onIdx_rep_tile_render (k : Nat) (s : String) (L : List EditNode)
    (hL : L ≠ []) :
    renderIdx (onIdx (opFn (.rep k (k + L.length) s)) k L) = s.toList := by
  cases L with
  | nil => exact absurd rfl hL
  | cons n rest =>
    have hk : opFn (.rep k (k + (n :: rest).length) s) k n =
        ⟨convertStr s none⟩ := by
      simp [opFn, repFn]
    simp only [onIdx, hk, renderIdx_cons]
    rw [rep_clear_render k (k + (n :: rest).length) s (k + 1) rest (by omega)
      (by simp only [List.length_cons]; omega)]
    simp [renderNode_mk_convert]

theorem onIdx_pre_head (k : Nat) (s : String) (n : EditNode) (L : List EditNode) :
    onIdx (opFn (.pre k s)) k (n :: L) =
      (⟨convertStr s none ++ n.current⟩ : EditNode) :: L := by
  have hk : opFn (.pre k s) k n = ⟨convertStr s none ++ n.current⟩ := by
    simp [opFn, preFn]
  simp only [onIdx, hk]
  rw [onIdx_opFn_id_right (.pre k s) (k + 1) L
    (by simp only [EditOp.lo, EditOp.hi]; omega)
    (by simp only [EditOp.hi]; omega)]

theorem onIdx_app_last (k : Nat) (s : String) (M : List EditNode) (n : EditNode) :
    onIdx (opFn (.app (k + M.length + 1) s)) k (M ++ [n]) =
      M ++ [(⟨n.current ++ convertStr s none⟩ : EditNode)] := by
  rw [onIdx_append]
  congr 1
  · exact onIdx_opFn_id_left _ _ _ (by simp [EditOp.lo])
  · have hk : opFn (.app (k + M.length + 1) s) (k + M.length) n =
        ⟨n.current ++ convertStr s none⟩ := by
      simp [opFn, appFn]
    simp [onIdx, hk]

theorem onIdx_app_render (k b : Nat) (s : String) (L : List EditNode)
    (hL : L ≠ []) (hb : b = k + L.length) :
    renderIdx (onIdx (opFn (.app b s)) k L) = renderIdx L ++ s.toList := by
  rcases List.eq_nil_or_concat L with rfl | ⟨M, n, hMn⟩
  · exact absurd rfl hL
  · rw [List.concat_eq_append] at hMn
    subst hMn
    have hb2 : b = k + M.length + 1 := by
      simp only [List.length_append, List.length_cons, List.length_nil] at hb
      omega
    subst hb2
    rw [onIdx_app_last, renderIdx_append, renderIdx_append]
    simp [renderIdx_cons, renderIdx_nil, renderNode_mk_append_convert,
      renderNode, convertStr_map_char]

theorem applyOpsFrom_pre_app_render (k : Nat) (s1 s2 : String)
    (B : List EditNode) (hB : B ≠ []) :
    renderIdx (applyOpsFrom k [.pre k s1, .app (k + B.length) s2] B) =
      s1.toList ++ renderIdx B ++ s2.toList := by
  cases B with
  | nil => exact absurd rfl hB
  | cons n rest =>
    rw [applyOpsFrom_cons, applyOpsFrom_cons, applyOpsFrom_nil, onIdx_pre_head]
    rw [onIdx_app_render _ _ _ _ (by simp) (by simp)]
    simp [renderIdx_cons, renderNode_mk_convert_append, renderNode,
      convertStr_map_char]

theorem filter_hi_le_eq_nil (ops : List EditOp) (mid : Nat)
    (h : ∀ op ∈ ops, mid ≤ op.lo ∧ op.lo < op.hi) :
    ops.filter (fun o => decide (o.hi ≤ mid)) = [] ∧
    ops.filter (fun o => !decide (o.hi ≤ mid)) = ops := by
  constructor
  · rw [List.filter_eq_nil_iff]
    intro op hop
    have := h op hop
    simp only [decide_eq_true_eq]
    omega
  · rw [List.filter_eq_self]
    intro op hop
    have := h op hop
    simp only [Bool.not_eq_true', decide_eq_false_iff_not]
    omega

theorem filter_hi_le_eq_self (ops : List EditOp) (mid : Nat)
    (h : ∀ op ∈ ops, op.hi ≤ mid) :
    ops.filter (fun o => decide (o.hi ≤ mid)) = ops ∧
    ops.filter (fun o => !decide (o.hi ≤ mid)) = [] := by
  constructor
  · rw [List.filter_eq_self]
    intro op hop
    simpa using h op hop
  · rw [List.filter_eq_nil_iff]
    intro op hop
    simpa using h op hop

theorem flatten_map_singleton (s : Source) :
    (s.map fun c => [c]).flatten = s := by
  induction s with
  | nil => rfl
  | cons c rest ih => simp [ih]

theorem setSource_of_ne_nil (s : Source) (h : s ≠ []) :
    setSource s = s.map fun c => (⟨[c]⟩ : EditNode) := by
  have : s.length > 0 := List.length_pos.2 h
  simp [setSource, this]

theorem getSource_setSource (s : Source) : getSource (setSource s) = s := by
  rcases eq_or_ne s [] with rfl | h
  · rfl
  · rw [setSource_of_ne_nil s h]
    simp only [getSource, List.map_map]
    have : (EditNode.current ∘ fun c => (⟨[c]⟩ : EditNode)) = fun c => [c] := rfl
    rw [this, flatten_map_singleton]

theorem renderIdx_eq_getSource_map (idx : List EditNode) :
    renderIdx idx = (getSource idx).map SourceChar.char := by
  rw [renderIdx, getSource, List.map_flatten, List.map_map]
  rfl

theorem textIdx_eq_mk_renderIdx (idx : List EditNode) :
    textIdx idx = ⟨renderIdx idx⟩ := by
  rw [textIdx, renderIdx_eq_getSource_map]

theorem renderIdx_setSource (s : Source) :
    renderIdx (setSource s) = s.map SourceChar.char := by
  rw [renderIdx_eq_getSource_map, getSource_setSource]

/-- C10: for every `SourceEditor` state, `stratify()` leaves the rendered
text unchanged: the string it returns (which is `text()` of the rebuilt
index) and `text()` after the call both equal `text()` computed immediately
before the call — `stratify` only rebuilds node granularity, never the
content. -/
theorem stratify_preserves_text (idx : List EditNode) :
    textIdx (stratifyIdx idx) = textIdx idx := by
  rw [textIdx, textIdx, stratifyIdx, getSource_setSource]

/-- C8 (amended): assigning a nonempty `Source` into the edit index builds
exactly one `EditNode` per character; assigning an empty `Source` builds a
single node holding the empty fragment, so the index length is `1`, not `0`. -/
theorem setSource_index_length (s : Source) :
    (s ≠ [] → (setSource s).length = s.length) ∧
    (setSource ([] : Source)).length = 1 := by
  constructor
  · intro h
    rw [setSource_of_ne_nil s h, List.length_map]
  · rfl

/-- C8 witness: `setSource_index_length` applied at a concrete one-character
source. -/
theorem setSource_index_length_witness :
    (setSource [⟨'a', some 0, none⟩]).length = [(⟨'a', some 0, none⟩ : SourceChar)].length :=
  (setSource_index_length [⟨'a', some 0, none⟩]).1 (by simp)

/-- C8 counterexample: the claim asserts the node count equals the source
length even for a length-zero source, but the setter special-cases the empty
source to a single empty node, so the index has length `1 ≠ 0`. -/
theorem setSource_empty_length_counterexample :
    (setSource ([] : Source)).length ≠ ([] : Source).length := by
  decide

/-- C7: for every edit index and every in-range half-open span
`[start, stop)`, `replace(start, stop, str)` sets the content of the node at
position `start` to (the conversion of) `str`, clears every node strictly
between `start` and `stop`, and leaves every node before `start` and at or
after `stop` unchanged. -/
theorem sourceEditor_replace_spec (idx : List EditNode) (a b : Nat)
    (str : String) (ha : a < idx.length) (hab : a < b) (hb : b ≤ idx.length) :
    (SourceEditor.replace idx a b str)[a]? = some ⟨convertStr str none⟩ ∧
    (∀ i, a < i → i < b → (SourceEditor.replace idx a b str)[i]? = some ⟨[]⟩) ∧
    (∀ i, i < a → (SourceEditor.replace idx a b str)[i]? = idx[i]?) ∧
    (∀ i, b ≤ i → (SourceEditor.replace idx a b str)[i]? = idx[i]?) := by
  have hget : ∀ i, (SourceEditor.replace idx a b str)[i]? =
      idx[i]?.map (repFn a b str i) := by
    intro i
    rw [SourceEditor.replace, onIdx_getElem?]
    simp
  refine ⟨?_, ?_, ?_, ?_⟩
  · rw [hget a, List.getElem?_eq_getElem ha]
    simp [repFn]
  · intro i h1 h2
    rw [hget i, List.getElem?_eq_getElem (by omega : i < idx.length)]
    have hne : i ≠ a := by omega
    simp [repFn, hne, h1, h2]
  · intro i h1
    rw [hget i]
    cases hi : idx[i]? with
    | none => rfl
    | some n =>
      have hne : i ≠ a := by omega
      have hno : ¬ (a < i ∧ i < b) := by omega
      simp [repFn, hne, hno]
  · intro i h1
    rw [hget i]
    cases hi : idx[i]? with
    | none => rfl
    | some n =>
      have hne : i ≠ a := by omega
      have hno : ¬ (a < i ∧ i < b) := by omega
      simp [repFn, hne, hno]

/-- C7 witness: `sourceEditor_replace_spec` applied to a concrete
three-node index with the span `[0, 2)`. -/
theorem sourceEditor_replace_spec_witness :
    (SourceEditor.replace
        [⟨[⟨'x', some 0, none⟩]⟩, ⟨[⟨'y', some 1, none⟩]⟩, ⟨[⟨'z', some 2, none⟩]⟩]
        0 2 "q")[0]? = some ⟨convertStr "q" none⟩ :=
  (sourceEditor_replace_spec
    [⟨[⟨'x', some 0, none⟩]⟩, ⟨[⟨'y', some 1, none⟩]⟩, ⟨[⟨'z', some 2, none⟩]⟩]
    0 2 "q" (by simp) (by omega) (by simp)).1

/-- C9 (amended): `t.softmax(axis)` is rejected with the descriptive error
exactly when `axis ≠ -1` — the final axis must be denoted by `-1`; a positive
spelling of the final axis (e.g. `rank - 1`) is also rejected.  When
`axis = -1` the request is not rejected and is dispatched to the underlying
op (`ops.softmax`, a parameter as in the source): directly for rank-2
tensors, through the reshape round-trip otherwise. -/
theorem softmax_reject_iff (t : Tensor) (axis : Int)
    (op : Tensor → Option Int → Tensor) :
    ((∃ e, Tensor.softmax op t axis = .error e) ↔ axis ≠ -1) ∧
    (axis ≠ -1 → Tensor.softmax op t axis =
      .error "Softmax along a non-last axis is not yet supported.") ∧
    (axis = -1 → Tensor.softmax op t axis =
      .ok (if t.rank = 2 then op t (some axis)
           else ((op (t.reshape [-1, Int.ofNat (t.shape.getD (t.rank - 1) 0)])
             none).reshape (t.shape.map Int.ofNat)))) := by
  by_cases haxis : axis = -1
  · subst haxis
    refine ⟨?_, ?_, ?_⟩
    · constructor
      · rintro ⟨e, he⟩
        by_cases hr : t.rank = 2 <;>
          simp [Tensor.softmax, softmaxHelper, hr] at he
      · intro h
        exact absurd rfl h
    · intro h
      exact absurd rfl h
    · intro _
      by_cases hr : t.rank = 2 <;>
        simp [Tensor.softmax, softmaxHelper, hr]
  · refine ⟨?_, ?_, ?_⟩
    · simp only [Tensor.softmax, softmaxHelper, if_pos haxis]
      exact ⟨fun _ => haxis, fun _ => ⟨_, rfl⟩⟩
    · intro _
      simp [Tensor.softmax, softmaxHelper, haxis]
    · intro h
      exact absurd h haxis

/-- C9 witness: `softmax_reject_iff` applied at `axis = -1` on a rank-2
tensor with the identity stand-in for the underlying op: the request is
dispatched, not rejected. -/
theorem softmax_reject_iff_witness :
    Tensor.softmax (fun u _ => u) ⟨[2, 3]⟩ (-1) = .ok ⟨[2, 3]⟩ := by
  have h := (softmax_reject_iff ⟨[2, 3]⟩ (-1) (fun u _ => u)).2.2 rfl
  simpa [Tensor.rank] using h

/-- C9 counterexample: on a rank-2 tensor, `axis = 1` denotes the final axis
(`1 = rank - 1`), yet `softmax` rejects it, because the code tests
`axis !== -1`, not whether the axis is final. -/
theorem softmax_final_axis_positive_rejected :
    Tensor.softmax (fun u _ => u) ⟨[2, 3]⟩ 1 =
      .error "Softmax along a non-last axis is not yet supported." ∧
    (1 : Int) = Int.ofNat (Tensor.rank ⟨[2, 3]⟩) - 1 := by
  constructor
  · rfl
  · rfl

theorem scopeList_trace_inv (body : JStmt) :
    ∀ (n : Nat) (stmts : List JStmt) (anc : List JStmt),
      sizeOf stmts ≤ n →
      (∃ rest, anc = body :: rest ∧ ∀ a ∈ rest, sizeOf a < sizeOf body) →
      (∀ s ∈ stmts, sizeOf s < sizeOf body) →
      ∀ v ∈ (scopeList body anc stmts).2,
        (∃ rest, v.anc = body :: rest ∧ ∀ a ∈ rest, sizeOf a < sizeOf body) ∧
        v.translated = (v.kind == VKind.kvar || v.anc.getLast? == some body) := by
  intro n
  induction n with
  | zero =>
    intro stmts anc hn _ _
    cases stmts with
    | nil => intro v hv; exact absurd hv (by simp [scopeList])
    | cons s rest =>
      exact absurd hn (by simp only [List.cons.sizeOf_spec]; omega)
  | succ n ih =>
    intro stmts anc hn hanc hsz v hv
    cases stmts with
    | nil => exact absurd hv (by simp [scopeList])
    | cons s rest =>
      simp only [scopeList, List.mem_append] at hv
      rcases hv with hv | hv
      · -- v comes from visiting `s`
        have hs : sizeOf s < sizeOf body := hsz s (List.mem_cons_self s rest)
        cases s with
        | importStmt d => exact absurd hv (by simp [scopeStmt])
        | varStmt k st sp ds =>
          simp only [scopeStmt, List.mem_singleton] at hv
          subst hv
          exact ⟨hanc, rfl⟩
        | funcStmt st sp nm => exact absurd hv (by simp [scopeStmt])
        | classStmt st sp nm => exact absurd hv (by simp [scopeStmt])
        | exprStmt st sp est => exact absurd hv (by simp [scopeStmt])
        | block st sp stmts2 =>
          simp only [scopeStmt] at hv
          refine ih stmts2 (anc ++ [JStmt.block st sp stmts2]) ?_ ?_ ?_ v hv
          · simp only [List.cons.sizeOf_spec, JStmt.block.sizeOf_spec] at hn
            omega
          · obtain ⟨r0, hr0, hr0s⟩ := hanc
            refine ⟨r0 ++ [JStmt.block st sp stmts2], by rw [hr0]; simp, ?_⟩
            intro a ha
            rcases List.mem_append.1 ha with ha | ha
            · exact hr0s a ha
            · rw [List.mem_singleton] at ha
              subst ha
              exact hs
          · intro c hc
            have h1 : sizeOf c < sizeOf stmts2 := List.sizeOf_lt_of_mem hc
            have h2 : sizeOf stmts2 < sizeOf (JStmt.block st sp stmts2) := by
              simp only [JStmt.block.sizeOf_spec]
              omega
            omega
      · -- v comes from the remaining statements
        refine ih rest anc ?_ hanc (fun c hc => hsz c (List.mem_cons_of_mem s hc)) v hv
        simp only [List.cons.sizeOf_spec] at hn
        omega

/-- C1: in the Scope Rewrite Pass, for every variable declaration reached by
the walk, a `var` declaration is translated regardless of its position (even
nested inside a block), while a `let`/`const` declaration is translated
exactly when its direct parent (the last element of the recorded ancestor
chain) is the top-level wrapper body, i.e. when the chain is exactly
`[body]`; in particular `let`/`const` nested inside a block are left
untranslated. -/
theorem scope_translation_policy (bs bp : Nat) (stmts : List JStmt)
    (body : JStmt) (hbody : body = JStmt.block bs bp stmts)
    (v : DeclVisit) (hv : v ∈ (scopeStmt body [] body).2) :
    (v.kind = VKind.kvar → v.translated = true) ∧
    (v.kind ≠ VKind.kvar → (v.translated = true ↔ v.anc = [body])) := by
  subst hbody
  have hv2 : v ∈ (scopeList (JStmt.block bs bp stmts)
      [JStmt.block bs bp stmts] stmts).2 := hv
  have hmain := scopeList_trace_inv (JStmt.block bs bp stmts)
    (sizeOf stmts) stmts [JStmt.block bs bp stmts] le_rfl
    ⟨[], rfl, by simp⟩
    (fun s hs => by
      have h1 : sizeOf s < sizeOf stmts := List.sizeOf_lt_of_mem hs
      have h2 : sizeOf stmts < sizeOf (JStmt.block bs bp stmts) := by
        simp only [JStmt.block.sizeOf_spec]
        omega
      omega)
    v hv2
  obtain ⟨⟨rest, hanc, hrest⟩, htr⟩ := hmain
  constructor
  · intro hk
    rw [htr, hk]
    simp
  · intro hk
    rw [htr]
    simp only [beq_eq_false_iff_ne.2 hk, Bool.false_or]
    rw [beq_iff_eq]
    constructor
    · intro h
      cases hrc : rest with
      | nil => rw [hanc, hrc]
      | cons r rest2 =>
        rw [hanc, hrc, List.getLast?_cons_cons] at h
        have hmem : JStmt.block bs bp stmts ∈ r :: rest2 :=
          List.mem_of_mem_getLast? h
        rw [hrc] at hrest
        exact absurd (hrest _ hmem) (lt_irrefl _)
    · intro h
      rw [h]
      rfl

/-- C1 witness: `scope_translation_policy` applied to a wrapper body holding
one block that holds one `let` declaration: the visit's ancestor chain is
`[body, block]`, not `[body]`, and the `let` is recorded untranslated (both
sides of the obtained equivalence are false). -/
theorem scope_translation_policy_witness :
    ((⟨VKind.klet, [],
        [JStmt.block 0 12 [JStmt.block 1 11 [JStmt.varStmt VKind.klet 2 10 []]],
         JStmt.block 1 11 [JStmt.varStmt VKind.klet 2 10 []]],
        false⟩ : DeclVisit).translated = true ↔ 
      (⟨VKind.klet, [],
        [JStmt.block 0 12 [JStmt.block 1 11 [JStmt.varStmt VKind.klet 2 10 []]],
         JStmt.block 1 11 [JStmt.varStmt VKind.klet 2 10 []]],
        false⟩ : DeclVisit).anc =
      [JStmt.block 0 12 [JStmt.block 1 11 [JStmt.varStmt VKind.klet 2 10 []]]]) :=
  (scope_translation_policy 0 12
    [JStmt.block 1 11 [JStmt.varStmt VKind.klet 2 10 []]]
    (JStmt.block 0 12 [JStmt.block 1 11 [JStmt.varStmt VKind.klet 2 10 []]]) rfl
    (⟨VKind.klet, [],
      [JStmt.block 0 12 [JStmt.block 1 11 [JStmt.varStmt VKind.klet 2 10 []]],
       JStmt.block 1 11 [JStmt.varStmt VKind.klet 2 10 []]],
      false⟩ : DeclVisit)
    (by decide)).2 (by decide)

/-- C3 (code bug): the `ClassDeclaration` visitor prepends
`__global.<name>=` (with no opening parenthesis) and appends `);`, so a
top-level `class A\x7b\x7d` is rewritten to `__global.A=class A\x7b\x7d);`,
which has one unmatched `)` — not the balanced
`<globalObject>.<className> = (<class expression>);` the claim (and the
`FunctionDeclaration` case, which emits `void (` ... `);`) prescribe.  A
class declaration that is not at top level is left untouched (no edits). -/
theorem class_rewrite_unbalanced :
    textIdx (applyOps (setSource (convertStr "class A\x7b\x7d" none))
        (classDeclOps 0 9 "A" true)) = "__global.A=class A\x7b\x7d);" ∧
    ("__global.A=class A\x7b\x7d);").toList.count '(' ≠
      ("__global.A=class A\x7b\x7d);").toList.count ')' ∧
    applyOps (setSource (convertStr "class A\x7b\x7d" none))
        (classDeclOps 5 9 "A" false) =
      setSource (convertStr "class A\x7b\x7d" none) := by
  refine ⟨by decide, by decide, rfl⟩

theorem finalOps_render (bst bsp : Nat) (stmts : List JStmt)
    (idx A B C : List EditNode) (st sp est : Nat)
    (hlast : stmts.getLast? = some (.exprStmt st sp est))
    (hidx : idx = A ++ B ++ C) (hA : A.length = st) (hB : st + B.length = est)
    (hBne : B ≠ []) :
    renderIdx (applyOps idx (finalOps (JStmt.block bst bsp stmts))) =
      renderIdx A ++ ("return (").toList ++ renderIdx B ++ (")").toList ++
        renderIdx C := by
  have hops : finalOps (JStmt.block bst bsp stmts) =
      [.pre st "return (", .app est ")"] := by
    rw [finalOps, hlast]
  have hBlen : 0 < B.length := List.length_pos.2 hBne
  have hmem : ∀ op ∈ [EditOp.pre st "return (", EditOp.app est ")"],
      op = EditOp.pre st "return (" ∨ op = EditOp.app est ")" := by
    intro op hop
    rcases List.mem_cons.1 hop with rfl | hop
    · exact Or.inl rfl
    · rcases List.mem_cons.1 hop with rfl | hop
      · exact Or.inr rfl
      · exact absurd hop (List.not_mem_nil _)
  subst hidx
  rw [applyOps_eq_applyOpsFrom, hops, List.append_assoc]
  have hbound1 : ∀ op ∈ [EditOp.pre st "return (", EditOp.app est ")"],
      op.lo < op.hi ∧ (op.hi ≤ 0 + A.length ∨ 0 + A.length ≤ op.lo) := by
    intro op hop
    rcases hmem op hop with rfl | rfl <;>
      (simp only [EditOp.lo, EditOp.hi]; omega)
  rw [applyOpsFrom_split 0 _ A (B ++ C) hbound1]
  have hfil := filter_hi_le_eq_nil [EditOp.pre st "return (", EditOp.app est ")"]
    (0 + A.length)
    (by intro op hop
        rcases hmem op hop with rfl | rfl <;>
          (simp only [EditOp.lo, EditOp.hi]; omega))
  rw [hfil.1, hfil.2, applyOpsFrom_nil]
  have hbound2 : ∀ op ∈ [EditOp.pre st "return (", EditOp.app est ")"],
      op.lo < op.hi ∧
      (op.hi ≤ 0 + A.length + B.length ∨ 0 + A.length + B.length ≤ op.lo) := by
    intro op hop
    rcases hmem op hop with rfl | rfl <;>
      (simp only [EditOp.lo, EditOp.hi]; omega)
  rw [applyOpsFrom_split (0 + A.length) _ B C hbound2]
  have hfil2 := filter_hi_le_eq_self [EditOp.pre st "return (", EditOp.app est ")"]
    (0 + A.length + B.length)
    (by intro op hop
        rcases hmem op hop with rfl | rfl <;>
          (simp only [EditOp.hi]; omega))
  rw [hfil2.1, hfil2.2, applyOpsFrom_nil]
  have hpre : (0 + A.length : Nat) = st := by omega
  have happ : est = st + B.length := by omega
  rw [renderIdx_append, renderIdx_append, happ, hpre]
  rw [applyOpsFrom_pre_app_render st "return (" ")" B hBne]
  simp [List.append_assoc]

/-- C5: in `transpile`, if the final statement of the wrapper body is a bare
expression statement, the trailing rewrite turns it into `return (<expr>)`
(prepending `return (` at the statement start and appending `)` at the end of
its expression), leaving everything before and after — including a trailing
semicolon — unchanged; if the final statement is anything else (or the body
is empty), no edit is made at all and the text is unchanged. -/
theorem trailing_expression_return_rewrite (bst bsp : Nat)
    (stmts : List JStmt) (idx A B C : List EditNode) (st sp est : Nat)
    (hlast : stmts.getLast? = some (.exprStmt st sp est))
    (hidx : idx = A ++ B ++ C) (hA : A.length = st) (hB : st + B.length = est)
    (hBne : B ≠ []) :
    textIdx (applyOps idx (finalOps (JStmt.block bst bsp stmts))) =
      ⟨renderIdx A ++ ("return (").toList ++ renderIdx B ++ (")").toList ++
        renderIdx C⟩ ∧
    (∀ (stmts2 : List JStmt) (idx2 : List EditNode),
      (∀ st2 sp2 est2, stmts2.getLast? ≠ some (.exprStmt st2 sp2 est2)) →
      applyOps idx2 (finalOps (JStmt.block bst bsp stmts2)) = idx2) := by
  constructor
  · rw [textIdx_eq_mk_renderIdx,
      finalOps_render bst bsp stmts idx A B C st sp est hlast hidx hA hB hBne]
  · intro stmts2 idx2 hne
    have hops : finalOps (JStmt.block bst bsp stmts2) = [] := by
      rw [finalOps]
      cases hg : stmts2.getLast? with
      | none => rfl
      | some s =>
        cases s with
        | exprStmt a b c => exact absurd hg (hne a b c)
        | importStmt d => rfl
        | varStmt k a b ds => rfl
        | funcStmt a b n => rfl
        | classStmt a b n => rfl
        | block a b l => rfl
    rw [hops]
    rfl

/-- C5 witness: `trailing_expression_return_rewrite` on the cell text `x;`
(statement span `[0,2)`, expression span `[0,1)`): the readout becomes
`return (x);`. -/
theorem trailing_expression_return_rewrite_witness :
    textIdx (applyOps (setSource (convertStr "x;" none))
        (finalOps (JStmt.block 0 4 [JStmt.exprStmt 0 2 1]))) = "return (x);" := by
  have h := (trailing_expression_return_rewrite 0 4 [JStmt.exprStmt 0 2 1]
    (setSource (convertStr "x;" none))
    [] [⟨[⟨'x', some 0, none⟩]⟩] [⟨[⟨';', some 1, none⟩]⟩]
    0 2 1 (by decide) (by decide) (by decide) (by decide) (by decide)).1
  rw [h]
  decide

theorem applyOpsFrom_apps_render (k : Nat) :
    ∀ (strs : List String) (B : List EditNode), B ≠ [] →
      renderIdx (applyOpsFrom k
        (strs.map fun x => EditOp.app (k + B.length) x) B) =
        renderIdx B ++ (strs.map String.toList).flatten
  | [], B, _ => by simp [applyOpsFrom_nil]
  | s :: rest, B, hB => by
    rw [List.map_cons, applyOpsFrom_cons]
    have hlen : (onIdx (opFn (.app (k + B.length) s)) k B).length = B.length :=
      onIdx_length _ _ _
    have hne : onIdx (opFn (.app (k + B.length) s)) k B ≠ [] := by
      intro h
      rw [h] at hlen
      exact hB (List.length_eq_zero.1 hlen.symm)
    have harg : (rest.map fun x => EditOp.app (k + B.length) x) =
        rest.map fun x =>
          EditOp.app (k + (onIdx (opFn (.app (k + B.length) s)) k B).length) x := by
      rw [hlen]
    rw [harg, applyOpsFrom_apps_render k rest _ hne]
    rw [onIdx_app_render k (k + B.length) s B hB rfl]
    simp [List.append_assoc]

theorem declarator_chunk_render (k : Nat) (g1 g2 : String) (strs : List String)
    (B : List EditNode) (hB : B ≠ []) :
    renderIdx (applyOpsFrom k
      ([EditOp.pre k g1, EditOp.pre k g2] ++
        strs.map fun x => EditOp.app (k + B.length) x) B) =
      g2.toList ++ g1.toList ++ renderIdx B ++
        (strs.map String.toList).flatten := by
  cases B with
  | nil => exact absurd rfl hB
  | cons n rest =>
    rw [List.cons_append, List.cons_append, List.nil_append,
      applyOpsFrom_cons, onIdx_pre_head, applyOpsFrom_cons, onIdx_pre_head]
    have harg : ((n :: rest : List EditNode).length) =
        ((⟨convertStr g2 none ++ (⟨convertStr g1 none ++ n.current⟩ :
          EditNode).current⟩ : EditNode) :: rest).length := by
      simp
    rw [show (strs.map fun x => EditOp.app (k + (n :: rest : List EditNode).length) x) =
        (strs.map fun x => EditOp.app (k +
          ((⟨convertStr g2 none ++ (⟨convertStr g1 none ++ n.current⟩ :
            EditNode).current⟩ : EditNode) :: rest).length) x) from by rw [← harg]]
    rw [applyOpsFrom_apps_render k strs _ (by simp)]
    simp [renderIdx_cons, renderNode, convertStr_map_char, List.append_assoc]

theorem declInitOps_mem (d : Declarator) :
    ∀ op ∈ declInitOps d, op = EditOp.pre d.start "(" ∨
      ∃ x, op = EditOp.app d.stop x := by
  intro op hop
  unfold declInitOps at hop
  by_cases h : d.init = true
  · rw [if_pos h] at hop
    rcases List.mem_cons.1 hop with rfl | hop
    · exact Or.inl rfl
    · rw [List.mem_singleton] at hop
      subst hop
      exact Or.inr ⟨_, rfl⟩
  · rw [if_neg h] at hop
    rcases List.mem_cons.1 hop with rfl | hop
    · exact Or.inl rfl
    · rw [List.mem_singleton] at hop
      subst hop
      exact Or.inr ⟨_, rfl⟩

theorem declIdOps_cons (d : Declarator) (dn gap : List EditNode)
    (rest : List DeclItem) :
    declIdOps ((d, dn, gap) :: rest) =
      EditOp.pre d.idStart (globalVar ++ ".") :: declIdOps rest := by
  simp [declIdOps]

theorem declParenOps_cons (d : Declarator) (dn gap : List EditNode)
    (rest : List DeclItem) :
    declParenOps ((d, dn, gap) :: rest) = declInitOps d ++ declParenOps rest := by
  simp [declParenOps]

theorem declChainNodes_length_cons (d : Declarator) (dn gap : List EditNode)
    (rest : List DeclItem) :
    (declChainNodes ((d, dn, gap) :: rest)).length =
      dn.length + gap.length + (declChainNodes rest).length := by
  simp [declChainNodes]
  omega

theorem declChain_ops_bounds :
    ∀ (k : Nat) (items : List DeclItem), declChainWF k items → items ≠ [] →
      ∀ op ∈ declIdOps items ++ declParenOps items ++
          [EditOp.app (declChainLastStop items) ")"],
        k ≤ op.lo ∧ op.lo < op.hi ∧ op.hi ≤ k + (declChainNodes items).length
  | k, [], _, hne => absurd rfl hne
  | k, (d, dn, gap) :: rest, hwf, _ => by
    obtain ⟨hst, hid, hsp, hdn, hwf2⟩ := hwf
    have hdnlen : 0 < dn.length := List.length_pos.2 hdn
    have hlen := declChainNodes_length_cons d dn gap rest
    intro op hop
    rw [declIdOps_cons, declParenOps_cons] at hop
    -- head-item edits versus the rest of the chain
    have hcases : op = EditOp.pre d.idStart (globalVar ++ ".") ∨
        op ∈ declInitOps d ∨
        op ∈ declIdOps rest ++ declParenOps rest ++
          [EditOp.app (declChainLastStop ((d, dn, gap) :: rest)) ")"] := by
      rcases List.mem_append.1 hop with hop | hop
      · rcases List.mem_append.1 hop with hop | hop
        · rcases List.mem_cons.1 hop with rfl | hop
          · exact Or.inl rfl
          · exact Or.inr (Or.inr (List.mem_append.2 (Or.inl
              (List.mem_append.2 (Or.inl hop)))))
        · rcases List.mem_append.1 hop with hop | hop
          · exact Or.inr (Or.inl hop)
          · exact Or.inr (Or.inr (List.mem_append.2 (Or.inl
              (List.mem_append.2 (Or.inr hop)))))
      · exact Or.inr (Or.inr (List.mem_append.2 (Or.inr hop)))
    rcases hcases with rfl | hop2 | hop2
    · simp only [EditOp.lo, EditOp.hi]
      omega
    · rcases declInitOps_mem d op hop2 with rfl | ⟨x, rfl⟩
      · simp only [EditOp.lo, EditOp.hi]
        omega
      · simp only [EditOp.lo, EditOp.hi]
        omega
    · cases rest with
      | nil =>
        -- the only rest-op is the final append on the last (= head) declarator
        simp only [declIdOps, declParenOps, List.map_nil, List.flatten_nil,
          List.nil_append, List.mem_singleton] at hop2
        subst hop2
        simp only [declChainLastStop, EditOp.lo, EditOp.hi]
        omega
      | cons r rs =>
        have hlast : declChainLastStop ((d, dn, gap) :: r :: rs) =
            declChainLastStop (r :: rs) := rfl
        rw [hlast] at hop2
        have hih := declChain_ops_bounds (d.stop + gap.length) (r :: rs) hwf2
          (by simp) op hop2
        have hlen2 := declChainNodes_length_cons d dn gap (r :: rs)
        refine ⟨by omega, hih.2.1, ?_⟩
        have h3 := hih.2.2
        omega

theorem declInitOps_eq (d : Declarator) :
    declInitOps d = [EditOp.pre d.start "(",
      EditOp.app d.stop (if d.init then ")" else "= undefined)")] := by
  unfold declInitOps
  by_cases h : d.init = true
  · rw [if_pos h, if_pos h]
  · rw [if_neg h, if_neg h]

theorem declRenderOne_eq (isLast : Bool) (d : Declarator)
    (dn : List EditNode) :
    declRenderOne isLast d dn =
      ("(").toList ++ (globalVar ++ ".").toList ++ renderIdx dn ++
      ((if d.init then ")" else "= undefined)") : String).toList ++
      (if isLast then (")").toList else []) := by
  by_cases h : d.init = true
  · simp only [declRenderOne, if_pos h]
  · simp only [declRenderOne, if_neg h]

theorem declChain_render :
    ∀ (k : Nat) (items : List DeclItem), items ≠ [] → declChainWF k items →
      renderIdx (applyOpsFrom k
        (declIdOps items ++ declParenOps items ++
          [EditOp.app (declChainLastStop items) ")"])
        (declChainNodes items)) = declChainRender items
  | _, [], hne, _ => absurd rfl hne
  | k, (d, dn, gap) :: rest, _, hwf => by
    obtain ⟨hst, hid, hsp, hdn, hwf2⟩ := hwf
    have hdnlen : 0 < dn.length := List.length_pos.2 hdn
    cases rest with
    | nil =>
      rw [show declChainNodes [(d, dn, gap)] = dn ++ (gap ++ []) from by
        simp [declChainNodes]]
      rw [declIdOps_cons, declParenOps_cons, declInitOps_eq]
      rw [show declIdOps ([] : List DeclItem) = [] from rfl,
        show declParenOps ([] : List DeclItem) = [] from rfl,
        show declChainLastStop [(d, dn, gap)] = d.stop from rfl]
      rw [hid, hst, hsp]
      have hall : ∀ op ∈ ([EditOp.pre k (globalVar ++ ".")] ++
          ([EditOp.pre k "(",
            EditOp.app (k + dn.length) (if d.init then ")" else "= undefined)")] ++
           ([] : List EditOp)) ++ [EditOp.app (k + dn.length) ")"]),
          op.lo < op.hi ∧ op.hi ≤ k + dn.length := by
        intro op hop
        simp only [List.append_nil, List.cons_append, List.nil_append,
          List.mem_cons, List.mem_singleton, List.not_mem_nil, or_false]
          at hop
        rcases hop with rfl | rfl | rfl | rfl <;>
          (simp only [EditOp.lo, EditOp.hi]; omega)
      rw [show ([EditOp.pre k (globalVar ++ ".")] ++
          ([EditOp.pre k "(",
            EditOp.app (k + dn.length) (if d.init then ")" else "= undefined)")] ++
           ([] : List EditOp)) ++ [EditOp.app (k + dn.length) ")"]) =
          ([EditOp.pre k (globalVar ++ "."), EditOp.pre k "("] ++
            ([(if d.init then ")" else "= undefined)"), ")"].map
              fun x => EditOp.app (k + dn.length) x)) from by simp]
      rw [applyOpsFrom_split k _ dn (gap ++ []) ?hb1]
      case hb1 =>
        intro op hop
        have := hall op (by
          revert hop
          simp)
        exact ⟨this.1, Or.inl this.2⟩
      have hfl := filter_hi_le_eq_self
        ([EditOp.pre k (globalVar ++ "."), EditOp.pre k "("] ++
          ([(if d.init then ")" else "= undefined)"), ")"].map
            fun x => EditOp.app (k + dn.length) x)) (k + dn.length)
        (by
          intro op hop
          have := hall op (by revert hop; simp)
          exact this.2)
      rw [hfl.1, hfl.2, applyOpsFrom_nil, renderIdx_append]
      rw [show ([(if d.init then ")" else "= undefined)"), ")"].map
          fun x => EditOp.app (k + dn.length) x) =
          ([(if d.init then ")" else "= undefined)"), ")"].map
            fun x => EditOp.app (k + dn.length) x) from rfl]
      rw [declarator_chunk_render k (globalVar ++ ".") "("
        [(if d.init then ")" else "= undefined)"), ")"] dn hdn]
      rw [show declChainRender [(d, dn, gap)] =
        declRenderOne true d dn ++ renderIdx gap from rfl]
      rw [declRenderOne_eq]
      simp [renderIdx_append, renderIdx_nil, List.append_assoc]
    | cons r rs =>
      have hk2 : k + dn.length = d.stop := by omega
      have hrestne : (r :: rs : List DeclItem) ≠ [] := by simp
      have hbR := declChain_ops_bounds (d.stop + gap.length) (r :: rs) hwf2 hrestne
      rw [show declChainNodes ((d, dn, gap) :: r :: rs) =
        dn ++ (gap ++ declChainNodes (r :: rs)) from by simp [declChainNodes]]
      rw [declIdOps_cons, declParenOps_cons, declInitOps_eq]
      rw [show declChainLastStop ((d, dn, gap) :: r :: rs) =
        declChainLastStop (r :: rs) from rfl]
      rw [hid, hst, hsp]
      -- membership helpers into the rest-chain op list
      have hmemId : ∀ op ∈ declIdOps (r :: rs),
          op ∈ declIdOps (r :: rs) ++ declParenOps (r :: rs) ++
            [EditOp.app (declChainLastStop (r :: rs)) ")"] :=
        fun op hop => List.mem_append.2 (Or.inl (List.mem_append.2 (Or.inl hop)))
      have hmemPar : ∀ op ∈ declParenOps (r :: rs),
          op ∈ declIdOps (r :: rs) ++ declParenOps (r :: rs) ++
            [EditOp.app (declChainLastStop (r :: rs)) ")"] :=
        fun op hop => List.mem_append.2 (Or.inl (List.mem_append.2 (Or.inr hop)))
      have hmemLast : (EditOp.app (declChainLastStop (r :: rs)) ")") ∈
          declIdOps (r :: rs) ++ declParenOps (r :: rs) ++
            [EditOp.app (declChainLastStop (r :: rs)) ")"] :=
        List.mem_append.2 (Or.inr (List.mem_singleton.2 rfl))
      have hheadops : ∀ op ∈ ([EditOp.pre k (globalVar ++ "."),
          EditOp.pre k "(",
          EditOp.app (k + dn.length) (if d.init then ")" else "= undefined)")]),
          op.lo < op.hi ∧ op.hi ≤ k + dn.length := by
        intro op hop
        simp only [List.mem_cons, List.mem_singleton, List.not_mem_nil,
          or_false] at hop
        rcases hop with rfl | rfl | rfl <;>
          (simp only [EditOp.lo, EditOp.hi]; omega)
      -- first split: declarator chunk `dn` versus the remainder
      rw [applyOpsFrom_split k _ dn (gap ++ declChainNodes (r :: rs)) ?hb2]
      case hb2 =>
        intro op hop
        rcases List.mem_append.1 hop with hop | hop
        · rcases List.mem_append.1 hop with hop | hop
          · rcases List.mem_cons.1 hop with rfl | hop
            · exact ⟨by simp only [EditOp.lo, EditOp.hi]; omega,
                Or.inl (by simp only [EditOp.hi]; omega)⟩
            · have := hbR op (hmemId op hop)
              exact ⟨this.2.1, Or.inr (by omega)⟩
          · rcases List.mem_append.1 hop with hop | hop
            · rcases List.mem_cons.1 hop with rfl | hop
              · exact ⟨by simp only [EditOp.lo, EditOp.hi]; omega,
                  Or.inl (by simp only [EditOp.hi]; omega)⟩
              · rw [List.mem_singleton] at hop
                subst hop
                exact ⟨by simp only [EditOp.lo, EditOp.hi]; omega,
                  Or.inl (by simp only [EditOp.hi]; omega)⟩
            · have := hbR op (hmemPar op hop)
              exact ⟨this.2.1, Or.inr (by omega)⟩
        · rw [List.mem_singleton] at hop
          subst hop
          have := hbR _ hmemLast
          exact ⟨this.2.1, Or.inr (by omega)⟩
      -- evaluate the two filters of the first split
      have hfidL := filter_hi_le_eq_nil (declIdOps (r :: rs)) (k + dn.length)
        (fun op hop => ⟨by have := hbR op (hmemId op hop); omega,
          (hbR op (hmemId op hop)).2.1⟩)
      have hfparL := filter_hi_le_eq_nil (declParenOps (r :: rs)) (k + dn.length)
        (fun op hop => ⟨by have := hbR op (hmemPar op hop); omega,
          (hbR op (hmemPar op hop)).2.1⟩)
      have hflastL := filter_hi_le_eq_nil
        [EditOp.app (declChainLastStop (r :: rs)) ")"] (k + dn.length)
        (fun op hop => by
          rw [List.mem_singleton] at hop
          subst hop
          have := hbR _ hmemLast
          exact ⟨by omega, this.2.1⟩)
      have hfpreL := filter_hi_le_eq_self
        [EditOp.pre k (globalVar ++ ".")] (k + dn.length)
        (fun op hop => by
          rw [List.mem_singleton] at hop
          subst hop
          simp only [EditOp.hi]
          omega)
      have hfheadL := filter_hi_le_eq_self
        [EditOp.pre k "(", EditOp.app (k + dn.length)
          (if d.init then ")" else "= undefined)")] (k + dn.length)
        (fun op hop => by
          rcases List.mem_cons.1 hop with rfl | hop
          · simp only [EditOp.hi]
            omega
          · rw [List.mem_singleton] at hop
            subst hop
            exact le_rfl)
      rw [show (EditOp.pre k (globalVar ++ ".") :: declIdOps (r :: rs)) =
        [EditOp.pre k (globalVar ++ ".")] ++ declIdOps (r :: rs) from rfl]
      simp only [List.filter_append]
      rw [hfidL.1, hfidL.2, hfparL.1, hfparL.2, hflastL.1, hflastL.2,
        hfpreL.1, hfpreL.2, hfheadL.1, hfheadL.2]
      simp only [List.append_nil, List.nil_append]
      rw [show ([EditOp.pre k (globalVar ++ ".")] ++
          [EditOp.pre k "(", EditOp.app (k + dn.length)
            (if d.init then ")" else "= undefined)")] : List EditOp) =
        ([EditOp.pre k (globalVar ++ "."), EditOp.pre k "("] ++
          ([(if d.init then ")" else "= undefined)")].map
            fun x => EditOp.app (k + dn.length) x)) from rfl]
      rw [renderIdx_append,
        declarator_chunk_render k (globalVar ++ ".") "("
          [(if d.init then ")" else "= undefined)")] dn hdn]
      -- second split: the gap is untouched; the tail is the chain of `rest`
      rw [applyOpsFrom_split (k + dn.length) _ gap (declChainNodes (r :: rs))
        (fun op hop => ⟨(hbR op hop).2.1,
          Or.inr (by have := hbR op hop; omega)⟩)]
      have hfR := filter_hi_le_eq_nil
        (declIdOps (r :: rs) ++ declParenOps (r :: rs) ++
          [EditOp.app (declChainLastStop (r :: rs)) ")"])
        (k + dn.length + gap.length)
        (fun op hop => ⟨by have := hbR op hop; omega, (hbR op hop).2.1⟩)
      rw [hfR.1, hfR.2, applyOpsFrom_nil, renderIdx_append]
      rw [show (k + dn.length + gap.length) = d.stop + gap.length from by omega]
      rw [declChain_render (d.stop + gap.length) (r :: rs) hrestne hwf2]
      rw [show declChainRender ((d, dn, gap) :: r :: rs) =
        declRenderOne false d dn ++ renderIdx gap ++ declChainRender (r :: rs)
        from by simp [declChainRender]]
      rw [declRenderOne_eq]
      simp [List.append_assoc]

theorem declChain_getLast_stop :
    ∀ (items : List DeclItem), items ≠ [] →
      ∃ dl, (items.map fun it => it.1).getLast? = some dl ∧
        dl.stop = declChainLastStop items
  | [], h => absurd rfl h
  | [(d, _, _)], _ => ⟨d, by simp, rfl⟩
  | (d, dn, gap) :: r :: rs, _ => by
    obtain ⟨dl, h1, h2⟩ := declChain_getLast_stop (r :: rs) (by simp)
    refine ⟨dl, ?_, h2⟩
    rw [List.map_cons]
    rw [show ((r :: rs).map fun it => it.1) = r.1 :: (rs.map fun it => it.1)
      from by simp] at h1 ⊢
    rw [List.getLast?_cons_cons]
    exact h1

theorem varDeclOps_eq_chain (kind : VKind) (a : Nat) (items : List DeclItem)
    (hne : items ≠ []) :
    varDeclOps kind a (items.map fun it => it.1) true =
      declIdOps items ++
      [EditOp.rep a (a + kind.str.length + 1) "void ("] ++
      declParenOps items ++
      [EditOp.app (declChainLastStop items) ")"] := by
  obtain ⟨dl, h1, h2⟩ := declChain_getLast_stop items hne
  rw [varDeclOps, if_pos rfl, h1]
  simp only [declIdOps, declParenOps]
  rw [List.map_map, List.map_map]
  simp [Function.comp_def, h2]

/-- C4 (amended): for every translated variable declaration (with plain
identifier targets), the `var`/`let`/`const` keyword together with the one
character that follows it is rewritten into `void (`; a declarator
`name = initExpr` becomes `(<globalObject>.name = initExpr)` — the whole
declarator is parenthesized, the initializer is not separately
parenthesized; a declarator with no initializer becomes
`(<globalObject>.name= undefined)`; and a trailing `)` closing the `void (`
wrapper is appended directly after the last declarator.  Text between and
around the rewritten spans is unchanged. -/
theorem var_rewrite_translated_form (kind : VKind) (a : Nat)
    (PRE KW1 S0 POST : List EditNode) (items : List DeclItem)
    (hne : items ≠ [])
    (hKW : KW1.length = kind.str.length + 1)
    (ha : PRE.length = a)
    (hwf : declChainWF (a + KW1.length + S0.length) items) :
    renderIdx (applyOps (PRE ++ KW1 ++ S0 ++ declChainNodes items ++ POST)
        (varDeclOps kind a (items.map fun it => it.1) true)) =
      renderIdx PRE ++ ("void (").toList ++ renderIdx S0 ++
        declChainRender items ++ renderIdx POST := by
  have hKW1 : 0 < KW1.length := by
    rw [hKW]
    omega
  have hbC := declChain_ops_bounds (a + KW1.length + S0.length) items hwf hne
  have hmemC : ∀ op ∈ declIdOps items ++ declParenOps items ++
      [EditOp.app (declChainLastStop items) ")"],
      a + KW1.length + S0.length ≤ op.lo ∧ op.lo < op.hi ∧
      op.hi ≤ a + KW1.length + S0.length + (declChainNodes items).length :=
    hbC
  rw [varDeclOps_eq_chain kind a items hne, applyOps_eq_applyOpsFrom]
  -- regroup the index for the successive splits
  rw [show (PRE ++ KW1 ++ S0 ++ declChainNodes items ++ POST) =
    (PRE ++ (KW1 ++ (S0 ++ (declChainNodes items ++ POST))))
    from by simp [List.append_assoc]]
  -- the op list, with the keyword replace singled out
  have hmemAll : ∀ op ∈ declIdOps items ++
      [EditOp.rep a (a + kind.str.length + 1) "void ("] ++
      declParenOps items ++ [EditOp.app (declChainLastStop items) ")"],
      op = EditOp.rep a (a + kind.str.length + 1) "void (" ∨
      op ∈ declIdOps items ++ declParenOps items ++
        [EditOp.app (declChainLastStop items) ")"] := by
    intro op hop
    rcases List.mem_append.1 hop with hop | hop
    · rcases List.mem_append.1 hop with hop | hop
      · rcases List.mem_append.1 hop with hop | hop
        · exact Or.inr (List.mem_append.2 (Or.inl (List.mem_append.2
            (Or.inl hop))))
        · rw [List.mem_singleton] at hop
          exact Or.inl hop
      · exact Or.inr (List.mem_append.2 (Or.inl (List.mem_append.2
          (Or.inr hop))))
    · exact Or.inr (List.mem_append.2 (Or.inr hop))
  -- split 1: PRE is untouched
  rw [applyOpsFrom_split 0 _ PRE (KW1 ++ (S0 ++ (declChainNodes items ++ POST)))
    (by
      intro op hop
      rcases hmemAll op hop with rfl | hop2
      · exact ⟨by simp only [EditOp.lo, EditOp.hi]; omega,
          Or.inr (by simp only [EditOp.lo]; omega)⟩
      · have := hmemC op hop2
        exact ⟨this.2.1, Or.inr (by omega)⟩)]
  have hf1 := filter_hi_le_eq_nil
    (declIdOps items ++
      [EditOp.rep a (a + kind.str.length + 1) "void ("] ++
      declParenOps items ++ [EditOp.app (declChainLastStop items) ")"])
    (0 + PRE.length)
    (by
      intro op hop
      rcases hmemAll op hop with rfl | hop2
      · exact ⟨by simp only [EditOp.lo]; omega,
          by simp only [EditOp.lo, EditOp.hi]; omega⟩
      · have := hmemC op hop2
        exact ⟨by omega, this.2.1⟩)
  rw [hf1.1, hf1.2, applyOpsFrom_nil, renderIdx_append]
  -- split 2: the keyword replace tiles KW1
  rw [applyOpsFrom_split (0 + PRE.length) _ KW1
    (S0 ++ (declChainNodes items ++ POST))
    (by
      intro op hop
      rcases hmemAll op hop with rfl | hop2
      · exact ⟨by simp only [EditOp.lo, EditOp.hi]; omega,
          Or.inl (by simp only [EditOp.hi]; omega)⟩
      · have := hmemC op hop2
        exact ⟨this.2.1, Or.inr (by omega)⟩)]
  have hfid2 := filter_hi_le_eq_nil (declIdOps items) (0 + PRE.length + KW1.length)
    (by
      intro op hop
      have := hmemC op (List.mem_append.2 (Or.inl (List.mem_append.2 (Or.inl hop))))
      exact ⟨by omega, this.2.1⟩)
  have hfpar2 := filter_hi_le_eq_nil (declParenOps items) (0 + PRE.length + KW1.length)
    (by
      intro op hop
      have := hmemC op (List.mem_append.2 (Or.inl (List.mem_append.2 (Or.inr hop))))
      exact ⟨by omega, this.2.1⟩)
  have hflast2 := filter_hi_le_eq_nil
    [EditOp.app (declChainLastStop items) ")"] (0 + PRE.length + KW1.length)
    (by
      intro op hop
      rw [List.mem_singleton] at hop
      subst hop
      have := hmemC _ (List.mem_append.2 (Or.inr (List.mem_singleton.2 rfl)))
      exact ⟨by omega, this.2.1⟩)
  have hfkw2 := filter_hi_le_eq_self
    [EditOp.rep a (a + kind.str.length + 1) "void ("] (0 + PRE.length + KW1.length)
    (by
      intro op hop
      rw [List.mem_singleton] at hop
      subst hop
      simp only [EditOp.hi]
      omega)
  simp only [List.filter_append]
  rw [hfid2.1, hfid2.2, hfpar2.1, hfpar2.2, hflast2.1, hflast2.2,
    hfkw2.1, hfkw2.2]
  simp only [List.append_nil, List.nil_append]
  rw [show applyOpsFrom (0 + PRE.length)
      [EditOp.rep a (a + kind.str.length + 1) "void ("] KW1 =
    onIdx (opFn (EditOp.rep a (a + kind.str.length + 1) "void ("))
      (0 + PRE.length) KW1 from rfl]
  rw [show (EditOp.rep a (a + kind.str.length + 1) "void (") =
    (EditOp.rep (0 + PRE.length) ((0 + PRE.length) + KW1.length) "void (")
    from by rw [ha, hKW]; congr 1 <;> omega]
  rw [renderIdx_append, onIdx_rep_tile_render (0 + PRE.length) "void (" KW1
    (by intro h; rw [h] at hKW1; simp at hKW1)]
  -- split 3: S0 is untouched
  rw [applyOpsFrom_split (0 + PRE.length + KW1.length) _ S0
    (declChainNodes items ++ POST)
    (by
      intro op hop
      have := hmemC op hop
      exact ⟨this.2.1, Or.inr (by omega)⟩)]
  have hf3 := filter_hi_le_eq_nil
    (declIdOps items ++ declParenOps items ++
      [EditOp.app (declChainLastStop items) ")"])
    (0 + PRE.length + KW1.length + S0.length)
    (by
      intro op hop
      have := hmemC op hop
      exact ⟨by omega, this.2.1⟩)
  rw [hf3.1, hf3.2, applyOpsFrom_nil, renderIdx_append]
  -- split 4: the chain is rewritten, POST is untouched
  rw [applyOpsFrom_split (0 + PRE.length + KW1.length + S0.length) _
    (declChainNodes items) POST
    (by
      intro op hop
      have := hmemC op hop
      exact ⟨this.2.1, Or.inl (by omega)⟩)]
  have hf4 := filter_hi_le_eq_self
    (declIdOps items ++ declParenOps items ++
      [EditOp.app (declChainLastStop items) ")"])
    (0 + PRE.length + KW1.length + S0.length + (declChainNodes items).length)
    (by
      intro op hop
      have := hmemC op hop
      omega)
  rw [hf4.1, hf4.2, applyOpsFrom_nil, renderIdx_append]
  rw [show (0 + PRE.length + KW1.length + S0.length) =
    a + KW1.length + S0.length from by omega]
  rw [declChain_render (a + KW1.length + S0.length) items hne hwf]
  simp [List.append_assoc]

/-- C4 witness: `var_rewrite_translated_form` on the fresh editor of
`var x = y, z;` (keyword span `[0,4)` including the following space,
declarators `x = y` at `[4,9)` with initializer and `z` at `[11,12)`
without): the readout becomes `void ((__global.x = y), (__global.z=
undefined));`. -/
theorem var_rewrite_translated_form_witness :
    renderIdx (applyOps (setSource (convertStr "var x = y, z;" none))
        (varDeclOps VKind.kvar 0
          (([((⟨4, 9, 4, true⟩ : Declarator),
              [(⟨[⟨'x', some 4, none⟩]⟩ : EditNode), ⟨[⟨' ', some 5, none⟩]⟩,
               ⟨[⟨'=', some 6, none⟩]⟩, ⟨[⟨' ', some 7, none⟩]⟩,
               ⟨[⟨'y', some 8, none⟩]⟩],
              [(⟨[⟨',', some 9, none⟩]⟩ : EditNode),
               ⟨[⟨' ', some 10, none⟩]⟩]),
            ((⟨11, 12, 11, false⟩ : Declarator),
              [(⟨[⟨'z', some 11, none⟩]⟩ : EditNode)],
              [(⟨[⟨';', some 12, none⟩]⟩ : EditNode)])] : List DeclItem).map
            fun it => it.1) true)) =
      ("void ((__global.x = y), (__global.z= undefined));").toList := by
  have h := var_rewrite_translated_form VKind.kvar 0
    ([] : List EditNode)
    [(⟨[⟨'v', some 0, none⟩]⟩ : EditNode), ⟨[⟨'a', some 1, none⟩]⟩,
     ⟨[⟨'r', some 2, none⟩]⟩, ⟨[⟨' ', some 3, none⟩]⟩]
    ([] : List EditNode) ([] : List EditNode)
    ([((⟨4, 9, 4, true⟩ : Declarator),
        [(⟨[⟨'x', some 4, none⟩]⟩ : EditNode), ⟨[⟨' ', some 5, none⟩]⟩,
         ⟨[⟨'=', some 6, none⟩]⟩, ⟨[⟨' ', some 7, none⟩]⟩,
         ⟨[⟨'y', some 8, none⟩]⟩],
        [(⟨[⟨',', some 9, none⟩]⟩ : EditNode), ⟨[⟨' ', some 10, none⟩]⟩]),
      ((⟨11, 12, 11, false⟩ : Declarator),
        [(⟨[⟨'z', some 11, none⟩]⟩ : EditNode)],
        [(⟨[⟨';', some 12, none⟩]⟩ : EditNode)])] : List DeclItem)
    (by decide) (by decide) (by decide)
    ⟨rfl, rfl, by decide, by decide, rfl, rfl, by decide, by decide, trivial⟩
  rw [show setSource (convertStr "var x = y, z;" none) =
    (([] : List EditNode) ++
      [(⟨[⟨'v', some 0, none⟩]⟩ : EditNode), ⟨[⟨'a', some 1, none⟩]⟩,
       ⟨[⟨'r', some 2, none⟩]⟩, ⟨[⟨' ', some 3, none⟩]⟩] ++
      ([] : List EditNode) ++
      declChainNodes
        ([((⟨4, 9, 4, true⟩ : Declarator),
            [(⟨[⟨'x', some 4, none⟩]⟩ : EditNode), ⟨[⟨' ', some 5, none⟩]⟩,
             ⟨[⟨'=', some 6, none⟩]⟩, ⟨[⟨' ', some 7, none⟩]⟩,
             ⟨[⟨'y', some 8, none⟩]⟩],
            [(⟨[⟨',', some 9, none⟩]⟩ : EditNode), ⟨[⟨' ', some 10, none⟩]⟩]),
          ((⟨11, 12, 11, false⟩ : Declarator),
            [(⟨[⟨'z', some 11, none⟩]⟩ : EditNode)],
            [(⟨[⟨';', some 12, none⟩]⟩ : EditNode)])] : List DeclItem) ++
      ([] : List EditNode)) from by decide]
  rw [h]
  decide

/-- C4 counterexample: the claim says a declarator `name = initExpr` becomes
`(<globalObject>.name = (initExpr))` with the initializer parenthesized; on
the concrete declaration `var x = y;` the code produces
`void ((__global.x = y));`, in which the parenthesized initializer `(y)`
never occurs — the visitor wraps the whole declarator, not the
initializer. -/
theorem var_rewrite_init_not_parenthesized :
    renderIdx (applyOps (setSource (convertStr "var x = y;" none))
        (varDeclOps VKind.kvar 0 [⟨4, 9, 4, true⟩] true)) =
      ("void ((__global.x = y));").toList ∧
    ¬ (("(y)").toList <:+: ("void ((__global.x = y));").toList) := by
  exact ⟨by decide, by decide⟩

theorem intercalate_cons_cons_chars (s x y : List Char) (zs : List (List Char)) :
    List.intercalate s (x :: y :: zs) = x ++ s ++ List.intercalate s (y :: zs) := by
  simp only [List.intercalate, List.intersperse]
  simp

theorem intercalate_singleton_chars (s x : List Char) :
    List.intercalate s [x] = x := by
  simp [List.intercalate]

theorem specChainWF_total (m : Nat) :
    ∀ (k : Nat) (items : List SpecItem), specChainWF k items m →
      k + (specChainNodes items).length = m
  | k, [], hwf => by
    simpa [specChainNodes] using hwf
  | k, (s, sn, gap) :: rest, hwf => by
    obtain ⟨hst, hsp, hsn, hgap, hops, hwf2⟩ := hwf
    have ih := specChainWF_total m (s.stop + gap.length) rest hwf2
    rw [show specChainNodes ((s, sn, gap) :: rest) =
      sn ++ (gap ++ specChainNodes rest) from by simp [specChainNodes]]
    simp only [List.length_append]
    omega

theorem commaOpsChain_cons (s : ImportSpec) (sn gap : List EditNode)
    (r : SpecItem) (rs : List SpecItem) :
    commaOpsChain ((s, sn, gap) :: r :: rs) =
      EditOp.rep s.stop r.1.start "," :: commaOpsChain (r :: rs) := by
  simp only [commaOpsChain, List.map_cons]
  rfl

theorem specOpsChain_cons (s : ImportSpec) (sn gap : List EditNode)
    (rest : List SpecItem) :
    specOpsChain ((s, sn, gap) :: rest) = specOps s ++ specOpsChain rest := by
  simp [specOpsChain]

theorem specChain_ops_bounds (m : Nat) (bigStr : String) :
    ∀ (k : Nat) (items : List SpecItem), items ≠ [] → specChainWF k items m →
      ∀ op ∈ commaOpsChain items ++
          [EditOp.rep (specChainLastStop items) m bigStr] ++
          specOpsChain items,
        k ≤ op.lo ∧ op.lo < op.hi ∧ op.hi ≤ m
  | k, [], hne, _ => absurd rfl hne
  | k, (s, sn, gap) :: rest, _, hwf => by
    obtain ⟨hst, hsp, hsn, hgap, hops, hwf2⟩ := hwf
    have hsnlen : 0 < sn.length := List.length_pos.2 hsn
    have hgaplen : 0 < gap.length := List.length_pos.2 hgap
    have htot2 := specChainWF_total m (s.stop + gap.length) rest hwf2
    intro op hop
    cases rest with
    | nil =>
      have hm : s.stop + gap.length = m := by simpa [specChainNodes] using htot2
      rcases List.mem_append.1 hop with hop | hop
      · rcases List.mem_append.1 hop with hop | hop
        · exact absurd hop (by simp [commaOpsChain, commaOps])
        · rw [List.mem_singleton] at hop
          subst hop
          simp only [EditOp.lo, EditOp.hi, specChainLastStop]
          omega
      · rw [show specOpsChain [(s, sn, gap)] = specOps s ++ [] from by
          simp [specOpsChain]] at hop
        rw [List.append_nil] at hop
        have := hops op hop
        omega
    | cons r rs =>
      have hrs : r.1.start = s.stop + gap.length := by
        obtain ⟨h1, _⟩ := hwf2
        rcases r with ⟨r1, rsn, rgap⟩
        exact h1
      have hih := specChain_ops_bounds m bigStr (s.stop + gap.length) (r :: rs)
        (by simp) hwf2
      rw [commaOpsChain_cons, specOpsChain_cons] at hop
      rw [show specChainLastStop ((s, sn, gap) :: r :: rs) =
        specChainLastStop (r :: rs) from rfl] at hop
      rcases List.mem_append.1 hop with hop | hop
      · rcases List.mem_append.1 hop with hop | hop
        · rcases List.mem_cons.1 hop with rfl | hop
          · -- the comma between this specifier and the next one
            have hnext := specChainWF_total m r.1.start
              ((r :: rs).map id |>.map id) (by
                rw [hrs]
                exact (by simpa using hwf2))
            simp only [EditOp.lo, EditOp.hi]
            have hrm : r.1.start ≤ m := by
              have := specChainWF_total m (s.stop + gap.length) (r :: rs) hwf2
              omega
            constructor
            · omega
            constructor
            · omega
            · omega
          · have := hih op (List.mem_append.2 (Or.inl (List.mem_append.2
              (Or.inl hop))))
            exact ⟨by omega, this.2.1, this.2.2⟩
        · rw [List.mem_singleton] at hop
          subst hop
          have := hih _ (List.mem_append.2 (Or.inl (List.mem_append.2
            (Or.inr (List.mem_singleton.2 rfl)))))
          exact ⟨by omega, this.2.1, this.2.2⟩
      · rcases List.mem_append.1 hop with hop | hop
        · have := hops op hop
          omega
        · have := hih op (List.mem_append.2 (Or.inr hop))
          exact ⟨by omega, this.2.1, this.2.2⟩

theorem specChain_render (m : Nat) (bigStr : String) :
    ∀ (k : Nat) (items : List SpecItem), items ≠ [] → specChainWF k items m →
      renderIdx (applyOpsFrom k
        (commaOpsChain items ++
          [EditOp.rep (specChainLastStop items) m bigStr] ++
          specOpsChain items)
        (specChainNodes items)) =
      List.intercalate (",".toList) (specChainRenders items) ++ bigStr.toList
  | k, [], hne, _ => absurd rfl hne
  | k, (s, sn, gap) :: rest, _, hwf => by
    obtain ⟨hst, hsp, hsn, hgap, hops, hwf2⟩ := hwf
    have hsnlen : 0 < sn.length := List.length_pos.2 hsn
    have hgaplen : 0 < gap.length := List.length_pos.2 hgap
    cases rest with
    | nil =>
      have hm : s.stop + gap.length = m := by
        simpa [specChainNodes] using specChainWF_total m (s.stop + gap.length) [] hwf2
      rw [show commaOpsChain [(s, sn, gap)] = [] from by
        simp [commaOpsChain, commaOps]]
      rw [show specOpsChain [(s, sn, gap)] = specOps s from by
        simp [specOpsChain]]
      rw [show specChainLastStop [(s, sn, gap)] = s.stop from rfl]
      rw [show specChainNodes [(s, sn, gap)] = sn ++ (gap ++ []) from by
        simp [specChainNodes]]
      rw [List.nil_append]
      rw [applyOpsFrom_split k _ sn (gap ++ []) (by
        intro op hop
        rcases List.mem_append.1 hop with hop | hop
        · rw [List.mem_singleton] at hop
          subst hop
          exact ⟨by simp only [EditOp.lo, EditOp.hi]; omega,
            Or.inr (by simp only [EditOp.lo]; omega)⟩
        · have := hops op hop
          exact ⟨this.2.2, Or.inl (by omega)⟩)]
      have hfrep := filter_hi_le_eq_nil [EditOp.rep s.stop m bigStr]
        (k + sn.length)
        (by
          intro op hop
          rw [List.mem_singleton] at hop
          subst hop
          exact ⟨by simp only [EditOp.lo]; omega,
            by simp only [EditOp.lo, EditOp.hi]; omega⟩)
      have hfspec := filter_hi_le_eq_self (specOps s) (k + sn.length)
        (by
          intro op hop
          have := hops op hop
          omega)
      simp only [List.filter_append]
      rw [hfrep.1, hfrep.2, hfspec.1, hfspec.2]
      simp only [List.append_nil, List.nil_append]
      rw [renderIdx_append]
      rw [show applyOpsFrom (k + sn.length) [EditOp.rep s.stop m bigStr] gap =
        onIdx (opFn (EditOp.rep s.stop m bigStr)) (k + sn.length) gap from rfl]
      rw [show (EditOp.rep s.stop m bigStr) =
        (EditOp.rep (k + sn.length) ((k + sn.length) + gap.length) bigStr)
        from by congr 1 <;> omega]
      rw [onIdx_rep_tile_render (k + sn.length) bigStr gap hgap]
      rw [show specChainRenders [(s, sn, gap)] = [specRender s sn] from rfl]
      rw [intercalate_singleton_chars]
      rw [show applyOpsFrom k (specOps s) sn =
        applyOpsFrom s.start (specOps s) sn from by rw [hst]]
      rw [show renderIdx (applyOpsFrom s.start (specOps s) sn) =
        specRender s sn from rfl]
    | cons r rs =>
      have hrstart : r.1.start = s.stop + gap.length := by
        obtain ⟨h1, _⟩ := hwf2
        rcases r with ⟨r1, rsn, rgap⟩
        exact h1
      have hrestne : (r :: rs : List SpecItem) ≠ [] := by simp
      have hbR := specChain_ops_bounds m bigStr (s.stop + gap.length) (r :: rs)
        hrestne hwf2
      rw [commaOpsChain_cons, specOpsChain_cons]
      rw [show specChainLastStop ((s, sn, gap) :: r :: rs) =
        specChainLastStop (r :: rs) from rfl]
      rw [show specChainNodes ((s, sn, gap) :: r :: rs) =
        sn ++ (gap ++ specChainNodes (r :: rs)) from by simp [specChainNodes]]
      -- membership helpers into the rest-chain op list
      have hmemCom : ∀ op ∈ commaOpsChain (r :: rs),
          op ∈ commaOpsChain (r :: rs) ++
            [EditOp.rep (specChainLastStop (r :: rs)) m bigStr] ++
            specOpsChain (r :: rs) :=
        fun op hop => List.mem_append.2 (Or.inl (List.mem_append.2 (Or.inl hop)))
      have hmemRep : (EditOp.rep (specChainLastStop (r :: rs)) m bigStr) ∈
          commaOpsChain (r :: rs) ++
            [EditOp.rep (specChainLastStop (r :: rs)) m bigStr] ++
            specOpsChain (r :: rs) :=
        List.mem_append.2 (Or.inl (List.mem_append.2 (Or.inr
          (List.mem_singleton.2 rfl))))
      have hmemSp : ∀ op ∈ specOpsChain (r :: rs),
          op ∈ commaOpsChain (r :: rs) ++
            [EditOp.rep (specChainLastStop (r :: rs)) m bigStr] ++
            specOpsChain (r :: rs) :=
        fun op hop => List.mem_append.2 (Or.inr hop)
      -- first split: the head specifier chunk
      rw [applyOpsFrom_split k _ sn (gap ++ specChainNodes (r :: rs)) (by
        intro op hop
        rcases List.mem_append.1 hop with hop | hop
        · rcases List.mem_append.1 hop with hop | hop
          · rcases List.mem_cons.1 hop with rfl | hop
            · exact ⟨by simp only [EditOp.lo, EditOp.hi]; omega,
                Or.inr (by simp only [EditOp.lo]; omega)⟩
            · have := hbR op (hmemCom op hop)
              exact ⟨this.2.1, Or.inr (by omega)⟩
          · rw [List.mem_singleton] at hop
            subst hop
            have := hbR _ hmemRep
            exact ⟨this.2.1, Or.inr (by omega)⟩
        · rcases List.mem_append.1 hop with hop | hop
          · have := hops op hop
            exact ⟨this.2.2, Or.inl (by omega)⟩
          · have := hbR op (hmemSp op hop)
            exact ⟨this.2.1, Or.inr (by omega)⟩)]
      have hfcomL := filter_hi_le_eq_nil (commaOpsChain (r :: rs)) (k + sn.length)
        (fun op hop => ⟨by have := hbR op (hmemCom op hop); omega,
          (hbR op (hmemCom op hop)).2.1⟩)
      have hfrepL := filter_hi_le_eq_nil
        [EditOp.rep (specChainLastStop (r :: rs)) m bigStr] (k + sn.length)
        (by
          intro op hop
          rw [List.mem_singleton] at hop
          subst hop
          have := hbR _ hmemRep
          exact ⟨by omega, this.2.1⟩)
      have hfspL := filter_hi_le_eq_nil (specOpsChain (r :: rs)) (k + sn.length)
        (fun op hop => ⟨by have := hbR op (hmemSp op hop); omega,
          (hbR op (hmemSp op hop)).2.1⟩)
      have hfheadL := filter_hi_le_eq_self (specOps s) (k + sn.length)
        (by
          intro op hop
          have := hops op hop
          omega)
      have hfcomm1L := filter_hi_le_eq_nil [EditOp.rep s.stop r.1.start ","]
        (k + sn.length)
        (by
          intro op hop
          rw [List.mem_singleton] at hop
          subst hop
          exact ⟨by simp only [EditOp.lo]; omega,
            by simp only [EditOp.lo, EditOp.hi]; omega⟩)
      rw [show (EditOp.rep s.stop r.1.start "," :: commaOpsChain (r :: rs)) =
        [EditOp.rep s.stop r.1.start ","] ++ commaOpsChain (r :: rs) from rfl]
      simp only [List.filter_append]
      rw [hfcomL.1, hfcomL.2, hfrepL.1, hfrepL.2, hfspL.1, hfspL.2,
        hfheadL.1, hfheadL.2, hfcomm1L.1, hfcomm1L.2]
      simp only [List.append_nil, List.nil_append]
      rw [renderIdx_append]
      rw [show applyOpsFrom k (specOps s) sn =
        applyOpsFrom s.start (specOps s) sn from by rw [hst]]
      rw [show renderIdx (applyOpsFrom s.start (specOps s) sn) =
        specRender s sn from rfl]
      -- second split: the comma tiles the gap, the rest is the sub-chain
      rw [applyOpsFrom_split (k + sn.length) _ gap (specChainNodes (r :: rs)) (by
        intro op hop
        rcases List.mem_append.1 hop with hop | hop
        · rcases List.mem_append.1 hop with hop | hop
          · rcases List.mem_append.1 hop with hop | hop
            · rw [List.mem_singleton] at hop
              subst hop
              exact ⟨by simp only [EditOp.lo, EditOp.hi]; omega,
                Or.inl (by simp only [EditOp.hi]; omega)⟩
            · have := hbR op (hmemCom op hop)
              exact ⟨this.2.1, Or.inr (by omega)⟩
          · rw [List.mem_singleton] at hop
            subst hop
            have := hbR _ hmemRep
            exact ⟨this.2.1, Or.inr (by omega)⟩
        · have := hbR op (hmemSp op hop)
          exact ⟨this.2.1, Or.inr (by omega)⟩)]
      have hfcomm1R := filter_hi_le_eq_self [EditOp.rep s.stop r.1.start ","]
        (k + sn.length + gap.length)
        (by
          intro op hop
          rw [List.mem_singleton] at hop
          subst hop
          simp only [EditOp.hi]
          omega)
      simp only [List.filter_append]
      rw [hfcomm1R.1, hfcomm1R.2]
      have hfcomR2 := filter_hi_le_eq_nil (commaOpsChain (r :: rs))
        (k + sn.length + gap.length)
        (fun op hop => ⟨by have := hbR op (hmemCom op hop); omega,
          (hbR op (hmemCom op hop)).2.1⟩)
      have hfrepR2 := filter_hi_le_eq_nil
        [EditOp.rep (specChainLastStop (r :: rs)) m bigStr]
        (k + sn.length + gap.length)
        (by
          intro op hop
          rw [List.mem_singleton] at hop
          subst hop
          have := hbR _ hmemRep
          exact ⟨by omega, this.2.1⟩)
      have hfspR2 := filter_hi_le_eq_nil (specOpsChain (r :: rs))
        (k + sn.length + gap.length)
        (fun op hop => ⟨by have := hbR op (hmemSp op hop); omega,
          (hbR op (hmemSp op hop)).2.1⟩)
      rw [hfcomR2.1, hfcomR2.2, hfrepR2.1, hfrepR2.2, hfspR2.1, hfspR2.2]
      simp only [List.append_nil, List.nil_append]
      rw [renderIdx_append]
      rw [show applyOpsFrom (k + sn.length) [EditOp.rep s.stop r.1.start ","] gap =
        onIdx (opFn (EditOp.rep s.stop r.1.start ",")) (k + sn.length) gap
        from rfl]
      rw [show (EditOp.rep s.stop r.1.start ",") =
        (EditOp.rep (k + sn.length) ((k + sn.length) + gap.length) ",")
        from by congr 1 <;> omega]
      rw [onIdx_rep_tile_render (k + sn.length) "," gap hgap]
      rw [show (k + sn.length + gap.length) = s.stop + gap.length from by omega]
      rw [specChain_render m bigStr (s.stop + gap.length) (r :: rs) hrestne hwf2]
      rw [show specChainRenders ((s, sn, gap) :: r :: rs) =
        specRender s sn :: specChainRenders (r :: rs) from rfl]
      rw [show specChainRenders (r :: rs) =
        specRender r.1 r.2.1 :: specChainRenders rs from by
          rcases r with ⟨r1, rsn, rgap⟩
          rfl]
      rw [intercalate_cons_cons_chars]
      rw [show (specRender r.1 r.2.1 :: specChainRenders rs) =
        specChainRenders (r :: rs) from by
          rcases r with ⟨r1, rsn, rgap⟩
          rfl]
      simp [List.append_assoc]

theorem specChain_getLastD_stop :
    ∀ (it0 : SpecItem) (rest : List SpecItem),
      ((rest.map fun it => it.1).getLastD it0.1).stop =
        specChainLastStop (it0 :: rest)
  | ⟨s0, sn0, g0⟩, [] => rfl
  | it0, r :: rs => by
    rw [List.map_cons, List.getLastD_cons]
    have ih := specChain_getLastD_stop r rs
    rw [ih]
    rcases it0 with ⟨s0, sn0, g0⟩
    rfl

theorem importDeclOps_eq_chain (d : ImportDecl) (it0 : SpecItem)
    (items2 : List SpecItem)
    (hspecs : d.specifiers = ((it0 :: items2).map fun it => it.1)) :
    importDeclOps d =
      [EditOp.rep d.start it0.1.start "var \x7b"] ++
      commaOpsChain (it0 :: items2) ++
      [EditOp.rep (specChainLastStop (it0 :: items2)) d.srcStart
        ("\x7d = \x7b_:await " ++ importFn ++ "("),
       EditOp.rep d.srcStop d.stop ")\x7d;"] ++
      specOpsChain (it0 :: items2) := by
  rcases it0 with ⟨s0, sn0, g0⟩
  rw [importDeclOps, hspecs]
  simp only [List.map_cons]
  rw [show ((items2.map fun it => it.1).getLastD s0).stop =
    specChainLastStop ((⟨s0, sn0, g0⟩ : SpecItem) :: items2)
    from specChain_getLastD_stop ⟨s0, sn0, g0⟩ items2]
  rw [show (specOps s0 :: ((items2.map fun it => it.1).map specOps)).flatten =
    specOpsChain ((⟨s0, sn0, g0⟩ : SpecItem) :: items2) from by
      simp [specOpsChain, List.map_map, Function.comp_def]]
  rfl

/-- C2: for every top-level import statement with at least one specifier, the
whole statement is rewritten to the destructuring assignment
`var \x7b<bindings>\x7d = \x7b_:await __import(<moduleSpecifierText>)\x7d;`,
where the bindings are the specifier chunks as rewritten by the per-specifier
visitors, joined by commas, and `<moduleSpecifierText>` is the untouched text
of the module string literal; an import with no specifiers is rewritten to
`await __import(<moduleSpecifierText>);`.  Text before and after the
statement is unchanged. -/
theorem import_rewrite_form (d : ImportDecl)
    (PRE G0 SRC TAIL POST : List EditNode)
    (it0 : SpecItem) (items2 : List SpecItem)
    (hspecs : d.specifiers = ((it0 :: items2).map fun it => it.1))
    (hstart : d.start = PRE.length)
    (hG0 : G0 ≠ [])
    (hwf : specChainWF (PRE.length + G0.length) (it0 :: items2) d.srcStart)
    (hsrc : d.srcStop = d.srcStart + SRC.length)
    (hTAIL : TAIL ≠ [])
    (hstop : d.stop = d.srcStop + TAIL.length) :
    (renderIdx (applyOps
        (PRE ++ G0 ++ specChainNodes (it0 :: items2) ++ SRC ++ TAIL ++ POST)
        (importDeclOps d)) =
      renderIdx PRE ++ ("var \x7b").toList ++
      List.intercalate (",".toList) (specChainRenders (it0 :: items2)) ++
      ("\x7d = \x7b_:await " ++ importFn ++ "(").toList ++
      renderIdx SRC ++ (")\x7d;").toList ++ renderIdx POST) ∧
    (∀ (d2 : ImportDecl) (PRE2 G2 SRC2 TAIL2 POST2 : List EditNode),
      d2.specifiers = [] →
      d2.start = PRE2.length →
      G2 ≠ [] →
      d2.srcStart = PRE2.length + G2.length →
      d2.srcStop = d2.srcStart + SRC2.length →
      TAIL2 ≠ [] →
      d2.stop = d2.srcStop + TAIL2.length →
      renderIdx (applyOps (PRE2 ++ G2 ++ SRC2 ++ TAIL2 ++ POST2)
          (importDeclOps d2)) =
        renderIdx PRE2 ++ ("await " ++ importFn ++ "(").toList ++
        renderIdx SRC2 ++ (");").toList ++ renderIdx POST2) := by
  constructor
  · have hG0len : 0 < G0.length := List.length_pos.2 hG0
    have hTAILlen : 0 < TAIL.length := List.length_pos.2 hTAIL
    have hne : (it0 :: items2 : List SpecItem) ≠ [] := by simp
    have hit0 : it0.1.start = PRE.length + G0.length := by
      rcases it0 with ⟨s0, sn0, g0⟩
      exact hwf.1
    have htot := specChainWF_total d.srcStart (PRE.length + G0.length)
      (it0 :: items2) hwf
    have hbC := specChain_ops_bounds d.srcStart
      ("\x7d = \x7b_:await " ++ importFn ++ "(")
      (PRE.length + G0.length) (it0 :: items2) hne hwf
    rw [importDeclOps_eq_chain d it0 items2 hspecs, applyOps_eq_applyOpsFrom]
    rw [show (PRE ++ G0 ++ specChainNodes (it0 :: items2) ++ SRC ++ TAIL ++ POST) =
      (PRE ++ (G0 ++ (specChainNodes (it0 :: items2) ++
        (SRC ++ (TAIL ++ POST))))) from by simp [List.append_assoc]]
    -- a case analysis on the op list used by every split below
    have hmemAll : ∀ op ∈ ([EditOp.rep d.start it0.1.start "var \x7b"] ++
        commaOpsChain (it0 :: items2) ++
        [EditOp.rep (specChainLastStop (it0 :: items2)) d.srcStart
          ("\x7d = \x7b_:await " ++ importFn ++ "("),
         EditOp.rep d.srcStop d.stop ")\x7d;"] ++
        specOpsChain (it0 :: items2)),
        op = EditOp.rep d.start it0.1.start "var \x7b" ∨
        op = EditOp.rep d.srcStop d.stop ")\x7d;" ∨
        op ∈ commaOpsChain (it0 :: items2) ++
          [EditOp.rep (specChainLastStop (it0 :: items2)) d.srcStart
            ("\x7d = \x7b_:await " ++ importFn ++ "(")] ++
          specOpsChain (it0 :: items2) := by
      intro op hop
      rcases List.mem_append.1 hop with hop | hop
      · rcases List.mem_append.1 hop with hop | hop
        · rcases List.mem_append.1 hop with hop | hop
          · rw [List.mem_singleton] at hop
            exact Or.inl hop
          · exact Or.inr (Or.inr (List.mem_append.2 (Or.inl
              (List.mem_append.2 (Or.inl hop)))))
        · rcases List.mem_cons.1 hop with rfl | hop
          · exact Or.inr (Or.inr (List.mem_append.2 (Or.inl
              (List.mem_append.2 (Or.inr (List.mem_singleton.2 rfl))))))
          · rw [List.mem_singleton] at hop
            exact Or.inr (Or.inl hop)
      · exact Or.inr (Or.inr (List.mem_append.2 (Or.inr hop)))
    -- split 1: PRE is untouched
    rw [applyOpsFrom_split 0 _ PRE _ (by
      intro op hop
      rcases hmemAll op hop with rfl | rfl | hop2
      · exact ⟨by simp only [EditOp.lo, EditOp.hi]; omega,
          Or.inr (by simp only [EditOp.lo]; omega)⟩
      · exact ⟨by simp only [EditOp.lo, EditOp.hi]; omega,
          Or.inr (by simp only [EditOp.lo]; omega)⟩
      · have := hbC op hop2
        exact ⟨this.2.1, Or.inr (by omega)⟩)]
    have hf1 := filter_hi_le_eq_nil _ (0 + PRE.length) (by
      intro op hop
      rcases hmemAll op hop with rfl | rfl | hop2
      · exact ⟨by simp only [EditOp.lo]; omega,
          by simp only [EditOp.lo, EditOp.hi]; omega⟩
      · exact ⟨by simp only [EditOp.lo]; omega,
          by simp only [EditOp.lo, EditOp.hi]; omega⟩
      · have := hbC op hop2
        exact ⟨by omega, this.2.1⟩)
    rw [hf1.1, hf1.2, applyOpsFrom_nil, renderIdx_append]
    -- split 2: `var \x7b` tiles G0
    rw [applyOpsFrom_split (0 + PRE.length) _ G0 _ (by
      intro op hop
      rcases hmemAll op hop with rfl | rfl | hop2
      · exact ⟨by simp only [EditOp.lo, EditOp.hi]; omega,
          Or.inl (by simp only [EditOp.hi]; omega)⟩
      · exact ⟨by simp only [EditOp.lo, EditOp.hi]; omega,
          Or.inr (by simp only [EditOp.lo]; omega)⟩
      · have := hbC op hop2
        exact ⟨this.2.1, Or.inr (by omega)⟩)]
    have hfvar := filter_hi_le_eq_self
      [EditOp.rep d.start it0.1.start "var \x7b"] (0 + PRE.length + G0.length)
      (by
        intro op hop
        rw [List.mem_singleton] at hop
        subst hop
        simp only [EditOp.hi]
        omega)
    have hfcom := filter_hi_le_eq_nil (commaOpsChain (it0 :: items2))
      (0 + PRE.length + G0.length)
      (fun op hop => by
        have := hbC op (List.mem_append.2 (Or.inl (List.mem_append.2
          (Or.inl hop))))
        exact ⟨by omega, this.2.1⟩)
    have hfbig := filter_hi_le_eq_nil
      [EditOp.rep (specChainLastStop (it0 :: items2)) d.srcStart
        ("\x7d = \x7b_:await " ++ importFn ++ "("),
       EditOp.rep d.srcStop d.stop ")\x7d;"] (0 + PRE.length + G0.length)
      (by
        intro op hop
        rcases List.mem_cons.1 hop with rfl | hop
        · have := hbC _ (List.mem_append.2 (Or.inl (List.mem_append.2
            (Or.inr (List.mem_singleton.2 rfl)))))
          exact ⟨by omega, this.2.1⟩
        · rw [List.mem_singleton] at hop
          subst hop
          exact ⟨by simp only [EditOp.lo]; omega,
            by simp only [EditOp.lo, EditOp.hi]; omega⟩)
    have hfsp := filter_hi_le_eq_nil (specOpsChain (it0 :: items2))
      (0 + PRE.length + G0.length)
      (fun op hop => by
        have := hbC op (List.mem_append.2 (Or.inr hop))
        exact ⟨by omega, this.2.1⟩)
    simp only [List.filter_append]
    rw [hfvar.1, hfvar.2, hfcom.1, hfcom.2, hfbig.1, hfbig.2, hfsp.1, hfsp.2]
    simp only [List.append_nil, List.nil_append]
    rw [renderIdx_append]
    rw [show applyOpsFrom (0 + PRE.length)
        [EditOp.rep d.start it0.1.start "var \x7b"] G0 =
      onIdx (opFn (EditOp.rep d.start it0.1.start "var \x7b"))
        (0 + PRE.length) G0 from rfl]
    rw [show (EditOp.rep d.start it0.1.start "var \x7b") =
      (EditOp.rep (0 + PRE.length) ((0 + PRE.length) + G0.length) "var \x7b")
      from by congr 1 <;> omega]
    rw [onIdx_rep_tile_render (0 + PRE.length) "var \x7b" G0 hG0]
    -- split 3: the specifier chain
    rw [applyOpsFrom_split (0 + PRE.length + G0.length) _
      (specChainNodes (it0 :: items2)) _ (by
      intro op hop
      rcases List.mem_append.1 hop with hop | hop
      · rcases List.mem_append.1 hop with hop | hop
        · have := hbC op (List.mem_append.2 (Or.inl (List.mem_append.2
            (Or.inl hop))))
          exact ⟨this.2.1, Or.inl (by omega)⟩
        · rcases List.mem_cons.1 hop with rfl | hop
          · have := hbC _ (List.mem_append.2 (Or.inl (List.mem_append.2
              (Or.inr (List.mem_singleton.2 rfl)))))
            exact ⟨this.2.1, Or.inl (by omega)⟩
          · rw [List.mem_singleton] at hop
            subst hop
            exact ⟨by simp only [EditOp.lo, EditOp.hi]; omega,
              Or.inr (by simp only [EditOp.lo]; omega)⟩
      · have := hbC op (List.mem_append.2 (Or.inr hop))
        exact ⟨this.2.1, Or.inl (by omega)⟩)]
    have hfch1 := filter_hi_le_eq_self (commaOpsChain (it0 :: items2))
      (0 + PRE.length + G0.length + (specChainNodes (it0 :: items2)).length)
      (fun op hop => by
        have := hbC op (List.mem_append.2 (Or.inl (List.mem_append.2
          (Or.inl hop))))
        omega)
    have hfch3 := filter_hi_le_eq_self (specOpsChain (it0 :: items2))
      (0 + PRE.length + G0.length + (specChainNodes (it0 :: items2)).length)
      (fun op hop => by
        have := hbC op (List.mem_append.2 (Or.inr hop))
        omega)
    have hbig := hbC _ (List.mem_append.2 (Or.inl (List.mem_append.2
      (Or.inr (List.mem_singleton.2 rfl)))))
    have hfpair :
        (List.filter (fun o => decide (o.hi ≤
            0 + PRE.length + G0.length +
              (specChainNodes (it0 :: items2)).length))
          [EditOp.rep (specChainLastStop (it0 :: items2)) d.srcStart
            ("\x7d = \x7b_:await " ++ importFn ++ "("),
           EditOp.rep d.srcStop d.stop ")\x7d;"] =
          [EditOp.rep (specChainLastStop (it0 :: items2)) d.srcStart
            ("\x7d = \x7b_:await " ++ importFn ++ "(")]) ∧
        (List.filter (fun o => !decide (o.hi ≤
            0 + PRE.length + G0.length +
              (specChainNodes (it0 :: items2)).length))
          [EditOp.rep (specChainLastStop (it0 :: items2)) d.srcStart
            ("\x7d = \x7b_:await " ++ importFn ++ "("),
           EditOp.rep d.srcStop d.stop ")\x7d;"] =
          [EditOp.rep d.srcStop d.stop ")\x7d;"]) := by
      have h1p : (EditOp.rep (specChainLastStop (it0 :: items2)) d.srcStart
          ("\x7d = \x7b_:await " ++ importFn ++ "(")).hi ≤
          PRE.length + G0.length +
            (specChainNodes (it0 :: items2)).length := by
        have := hbig.2.2
        omega
      have h2p : ¬ ((EditOp.rep d.srcStop d.stop ")\x7d;").hi ≤
          PRE.length + G0.length +
            (specChainNodes (it0 :: items2)).length) := by
        simp only [EditOp.hi]
        omega
      constructor
      · simp [List.filter_cons, h1p, h2p]
      · simp [List.filter_cons, h1p, h2p]
    simp only [List.filter_append]
    rw [hfch1.1, hfch1.2, hfch3.1, hfch3.2, hfpair.1, hfpair.2]
    simp only [List.append_nil, List.nil_append]
    rw [renderIdx_append]
    rw [show (0 + PRE.length + G0.length) = PRE.length + G0.length from by omega]
    rw [specChain_render d.srcStart ("\x7d = \x7b_:await " ++ importFn ++ "(")
      (PRE.length + G0.length) (it0 :: items2) hne hwf]
    -- split 4: SRC untouched, `)\x7d;` tiles TAIL, POST untouched
    rw [applyOpsFrom_split (PRE.length + G0.length +
        (specChainNodes (it0 :: items2)).length) _ SRC _ (by
      intro op hop
      rw [List.mem_singleton] at hop
      subst hop
      exact ⟨by simp only [EditOp.lo, EditOp.hi]; omega,
        Or.inr (by simp only [EditOp.lo]; omega)⟩)]
    have hftl2 := filter_hi_le_eq_nil [EditOp.rep d.srcStop d.stop ")\x7d;"]
      (PRE.length + G0.length + (specChainNodes (it0 :: items2)).length +
        SRC.length)
      (by
        intro op hop
        rw [List.mem_singleton] at hop
        subst hop
        exact ⟨by simp only [EditOp.lo]; omega,
          by simp only [EditOp.lo, EditOp.hi]; omega⟩)
    rw [hftl2.1, hftl2.2, applyOpsFrom_nil, renderIdx_append]
    rw [applyOpsFrom_split (PRE.length + G0.length +
        (specChainNodes (it0 :: items2)).length + SRC.length) _ TAIL POST (by
      intro op hop
      rw [List.mem_singleton] at hop
      subst hop
      exact ⟨by simp only [EditOp.lo, EditOp.hi]; omega,
        Or.inl (by simp only [EditOp.hi]; omega)⟩)]
    have hftl3 := filter_hi_le_eq_self [EditOp.rep d.srcStop d.stop ")\x7d;"]
      (PRE.length + G0.length + (specChainNodes (it0 :: items2)).length +
        SRC.length + TAIL.length)
      (by
        intro op hop
        rw [List.mem_singleton] at hop
        subst hop
        simp only [EditOp.hi]
        omega)
    rw [hftl3.1, hftl3.2, applyOpsFrom_nil, renderIdx_append]
    rw [show applyOpsFrom (PRE.length + G0.length +
        (specChainNodes (it0 :: items2)).length + SRC.length)
        [EditOp.rep d.srcStop d.stop ")\x7d;"] TAIL =
      onIdx (opFn (EditOp.rep d.srcStop d.stop ")\x7d;"))
        (PRE.length + G0.length + (specChainNodes (it0 :: items2)).length +
          SRC.length) TAIL from rfl]
    rw [show (EditOp.rep d.srcStop d.stop ")\x7d;") =
      (EditOp.rep (PRE.length + G0.length +
          (specChainNodes (it0 :: items2)).length + SRC.length)
        ((PRE.length + G0.length + (specChainNodes (it0 :: items2)).length +
          SRC.length) + TAIL.length) ")\x7d;") from by congr 1 <;> omega]
    rw [onIdx_rep_tile_render _ ")\x7d;" TAIL hTAIL]
    simp [List.append_assoc]
  · intro d2 PRE2 G2 SRC2 TAIL2 POST2 hsp2 hst2 hG2 hsrcst2 hsrc2 hTAIL2 hstop2
    have hG2len : 0 < G2.length := List.length_pos.2 hG2
    have hTAIL2len : 0 < TAIL2.length := List.length_pos.2 hTAIL2
    rw [show importDeclOps d2 =
      [EditOp.rep d2.start d2.srcStart ("await " ++ importFn ++ "("),
       EditOp.rep d2.srcStop d2.stop ");"] from by rw [importDeclOps, hsp2]]
    rw [applyOps_eq_applyOpsFrom]
    rw [show (PRE2 ++ G2 ++ SRC2 ++ TAIL2 ++ POST2) =
      (PRE2 ++ (G2 ++ (SRC2 ++ (TAIL2 ++ POST2)))) from by
        simp [List.append_assoc]]
    have hmem2 : ∀ op ∈ [EditOp.rep d2.start d2.srcStart
        ("await " ++ importFn ++ "("),
        EditOp.rep d2.srcStop d2.stop ");"],
        op = EditOp.rep d2.start d2.srcStart ("await " ++ importFn ++ "(") ∨
        op = EditOp.rep d2.srcStop d2.stop ");" := by
      intro op hop
      rcases List.mem_cons.1 hop with rfl | hop
      · exact Or.inl rfl
      · rw [List.mem_singleton] at hop
        exact Or.inr hop
    rw [applyOpsFrom_split 0 _ PRE2 _ (by
      intro op hop
      rcases hmem2 op hop with rfl | rfl <;>
        exact ⟨by simp only [EditOp.lo, EditOp.hi]; omega,
          Or.inr (by simp only [EditOp.lo]; omega)⟩)]
    have h2f1 := filter_hi_le_eq_nil _ (0 + PRE2.length) (by
      intro op hop
      rcases hmem2 op hop with rfl | rfl <;>
        exact ⟨by simp only [EditOp.lo]; omega,
          by simp only [EditOp.lo, EditOp.hi]; omega⟩)
    rw [h2f1.1, h2f1.2, applyOpsFrom_nil, renderIdx_append]
    rw [applyOpsFrom_split (0 + PRE2.length) _ G2 _ (by
      intro op hop
      rcases hmem2 op hop with rfl | rfl
      · exact ⟨by simp only [EditOp.lo, EditOp.hi]; omega,
          Or.inl (by simp only [EditOp.hi]; omega)⟩
      · exact ⟨by simp only [EditOp.lo, EditOp.hi]; omega,
          Or.inr (by simp only [EditOp.lo]; omega)⟩)]
    have h2fa := filter_hi_le_eq_self
      [EditOp.rep d2.start d2.srcStart ("await " ++ importFn ++ "(")]
      (0 + PRE2.length + G2.length)
      (by
        intro op hop
        rw [List.mem_singleton] at hop
        subst hop
        simp only [EditOp.hi]
        omega)
    have h2fb := filter_hi_le_eq_nil [EditOp.rep d2.srcStop d2.stop ");"]
      (0 + PRE2.length + G2.length)
      (by
        intro op hop
        rw [List.mem_singleton] at hop
        subst hop
        exact ⟨by simp only [EditOp.lo]; omega,
          by simp only [EditOp.lo, EditOp.hi]; omega⟩)
    rw [show ([EditOp.rep d2.start d2.srcStart ("await " ++ importFn ++ "("),
        EditOp.rep d2.srcStop d2.stop ");"]) =
      ([EditOp.rep d2.start d2.srcStart ("await " ++ importFn ++ "(")] ++
        [EditOp.rep d2.srcStop d2.stop ");"]) from rfl]
    simp only [List.filter_append]
    rw [h2fa.1, h2fa.2, h2fb.1, h2fb.2]
    simp only [List.append_nil, List.nil_append]
    rw [renderIdx_append]
    rw [show applyOpsFrom (0 + PRE2.length)
        [EditOp.rep d2.start d2.srcStart ("await " ++ importFn ++ "(")] G2 =
      onIdx (opFn (EditOp.rep d2.start d2.srcStart
        ("await " ++ importFn ++ "("))) (0 + PRE2.length) G2 from rfl]
    rw [show (EditOp.rep d2.start d2.srcStart ("await " ++ importFn ++ "(")) =
      (EditOp.rep (0 + PRE2.length) ((0 + PRE2.length) + G2.length)
        ("await " ++ importFn ++ "(")) from by congr 1 <;> omega]
    rw [onIdx_rep_tile_render (0 + PRE2.length) ("await " ++ importFn ++ "(")
      G2 hG2]
    rw [applyOpsFrom_split (0 + PRE2.length + G2.length) _ SRC2 _ (by
      intro op hop
      rw [List.mem_singleton] at hop
      subst hop
      exact ⟨by simp only [EditOp.lo, EditOp.hi]; omega,
        Or.inr (by simp only [EditOp.lo]; omega)⟩)]
    have h2fc := filter_hi_le_eq_nil [EditOp.rep d2.srcStop d2.stop ");"]
      (0 + PRE2.length + G2.length + SRC2.length)
      (by
        intro op hop
        rw [List.mem_singleton] at hop
        subst hop
        exact ⟨by simp only [EditOp.lo]; omega,
          by simp only [EditOp.lo, EditOp.hi]; omega⟩)
    rw [h2fc.1, h2fc.2, applyOpsFrom_nil, renderIdx_append]
    rw [applyOpsFrom_split (0 + PRE2.length + G2.length + SRC2.length) _
      TAIL2 POST2 (by
      intro op hop
      rw [List.mem_singleton] at hop
      subst hop
      exact ⟨by simp only [EditOp.lo, EditOp.hi]; omega,
        Or.inl (by simp only [EditOp.hi]; omega)⟩)]
    have h2fd := filter_hi_le_eq_self [EditOp.rep d2.srcStop d2.stop ");"]
      (0 + PRE2.length + G2.length + SRC2.length + TAIL2.length)
      (by
        intro op hop
        rw [List.mem_singleton] at hop
        subst hop
        simp only [EditOp.hi]
        omega)
    rw [h2fd.1, h2fd.2, applyOpsFrom_nil, renderIdx_append]
    rw [show applyOpsFrom (0 + PRE2.length + G2.length + SRC2.length)
        [EditOp.rep d2.srcStop d2.stop ");"] TAIL2 =
      onIdx (opFn (EditOp.rep d2.srcStop d2.stop ");"))
        (0 + PRE2.length + G2.length + SRC2.length) TAIL2 from rfl]
    rw [show (EditOp.rep d2.srcStop d2.stop ");") =
      (EditOp.rep (0 + PRE2.length + G2.length + SRC2.length)
        ((0 + PRE2.length + G2.length + SRC2.length) + TAIL2.length) ");")
      from by congr 1 <;> omega]
    rw [onIdx_rep_tile_render _ ");" TAIL2 hTAIL2]
    simp [List.append_assoc]

/-- C2 witness: `import_rewrite_form` on the fresh editor of
`import x, \x7ba as b\x7d from "m";` (a default specifier plus an aliased
named specifier): the statement becomes
`var \x7b_:\x7bdefault:x\x7d,_:\x7ba:b\x7d\x7d = \x7b_:await __import("m")\x7d;`. -/
theorem import_rewrite_form_witness :
    renderIdx (applyOps (setSource (convertStr "import x, \x7ba as b\x7d from \"m\";" none))
        (importDeclOps (⟨0, 28, [ImportSpec.importDefaultSpecifier 7 8 7 8,
      ImportSpec.importSpecifier 11 17 12 16], 24, 27⟩ : ImportDecl))) =
      ("var \x7b_:\x7bdefault:x\x7d,_:\x7ba:b\x7d\x7d = \x7b_:await __import(\"m\")\x7d;").toList := by
  have h := (import_rewrite_form (⟨0, 28, [ImportSpec.importDefaultSpecifier 7 8 7 8,
      ImportSpec.importSpecifier 11 17 12 16], 24, 27⟩ : ImportDecl)
    ([] : List EditNode)
    [(⟨[⟨'i', some 0, none⟩]⟩ : EditNode),
       (⟨[⟨'m', some 1, none⟩]⟩ : EditNode),
       (⟨[⟨'p', some 2, none⟩]⟩ : EditNode),
       (⟨[⟨'o', some 3, none⟩]⟩ : EditNode),
       (⟨[⟨'r', some 4, none⟩]⟩ : EditNode),
       (⟨[⟨'t', some 5, none⟩]⟩ : EditNode),
       (⟨[⟨' ', some 6, none⟩]⟩ : EditNode)]
    [(⟨[⟨'\"', some 24, none⟩]⟩ : EditNode),
       (⟨[⟨'m', some 25, none⟩]⟩ : EditNode),
       (⟨[⟨'\"', some 26, none⟩]⟩ : EditNode)]
    [(⟨[⟨';', some 27, none⟩]⟩ : EditNode)]
    ([] : List EditNode)
    ((ImportSpec.importDefaultSpecifier 7 8 7 8),
      [(⟨[⟨'x', some 7, none⟩]⟩ : EditNode)],
      [(⟨[⟨',', some 8, none⟩]⟩ : EditNode),
       (⟨[⟨' ', some 9, none⟩]⟩ : EditNode),
       (⟨[⟨'\x7b', some 10, none⟩]⟩ : EditNode)])
    [((ImportSpec.importSpecifier 11 17 12 16),
      [(⟨[⟨'a', some 11, none⟩]⟩ : EditNode),
       (⟨[⟨' ', some 12, none⟩]⟩ : EditNode),
       (⟨[⟨'a', some 13, none⟩]⟩ : EditNode),
       (⟨[⟨'s', some 14, none⟩]⟩ : EditNode),
       (⟨[⟨' ', some 15, none⟩]⟩ : EditNode),
       (⟨[⟨'b', some 16, none⟩]⟩ : EditNode)],
      [(⟨[⟨'\x7d', some 17, none⟩]⟩ : EditNode),
       (⟨[⟨' ', some 18, none⟩]⟩ : EditNode),
       (⟨[⟨'f', some 19, none⟩]⟩ : EditNode),
       (⟨[⟨'r', some 20, none⟩]⟩ : EditNode),
       (⟨[⟨'o', some 21, none⟩]⟩ : EditNode),
       (⟨[⟨'m', some 22, none⟩]⟩ : EditNode),
       (⟨[⟨' ', some 23, none⟩]⟩ : EditNode)])]
    (by decide) (by decide) (by decide)
    ⟨rfl, by decide, by decide, by decide, by decide,
     rfl, by decide, by decide, by decide, by decide, rfl⟩
    (by decide) (by decide) (by decide)).1
  rw [show setSource (convertStr "import x, \x7ba as b\x7d from \"m\";" none) =
    (([] : List EditNode) ++
      [(⟨[⟨'i', some 0, none⟩]⟩ : EditNode),
       (⟨[⟨'m', some 1, none⟩]⟩ : EditNode),
       (⟨[⟨'p', some 2, none⟩]⟩ : EditNode),
       (⟨[⟨'o', some 3, none⟩]⟩ : EditNode),
       (⟨[⟨'r', some 4, none⟩]⟩ : EditNode),
       (⟨[⟨'t', some 5, none⟩]⟩ : EditNode),
       (⟨[⟨' ', some 6, none⟩]⟩ : EditNode)] ++
      specChainNodes
        [((ImportSpec.importDefaultSpecifier 7 8 7 8),
      [(⟨[⟨'x', some 7, none⟩]⟩ : EditNode)],
      [(⟨[⟨',', some 8, none⟩]⟩ : EditNode),
       (⟨[⟨' ', some 9, none⟩]⟩ : EditNode),
       (⟨[⟨'\x7b', some 10, none⟩]⟩ : EditNode)]),
         ((ImportSpec.importSpecifier 11 17 12 16),
      [(⟨[⟨'a', some 11, none⟩]⟩ : EditNode),
       (⟨[⟨' ', some 12, none⟩]⟩ : EditNode),
       (⟨[⟨'a', some 13, none⟩]⟩ : EditNode),
       (⟨[⟨'s', some 14, none⟩]⟩ : EditNode),
       (⟨[⟨' ', some 15, none⟩]⟩ : EditNode),
       (⟨[⟨'b', some 16, none⟩]⟩ : EditNode)],
      [(⟨[⟨'\x7d', some 17, none⟩]⟩ : EditNode),
       (⟨[⟨' ', some 18, none⟩]⟩ : EditNode),
       (⟨[⟨'f', some 19, none⟩]⟩ : EditNode),
       (⟨[⟨'r', some 20, none⟩]⟩ : EditNode),
       (⟨[⟨'o', some 21, none⟩]⟩ : EditNode),
       (⟨[⟨'m', some 22, none⟩]⟩ : EditNode),
       (⟨[⟨' ', some 23, none⟩]⟩ : EditNode)])] ++
      [(⟨[⟨'\"', some 24, none⟩]⟩ : EditNode),
       (⟨[⟨'m', some 25, none⟩]⟩ : EditNode),
       (⟨[⟨'\"', some 26, none⟩]⟩ : EditNode)] ++
      [(⟨[⟨';', some 27, none⟩]⟩ : EditNode)] ++
      ([] : List EditNode)) from by decide]
  rw [h]
  decide

theorem importListWalk_eq_nil :
    ∀ (n : Nat) (stmts : List JStmt), sizeOf stmts ≤ n →
      importFreeList stmts = true → importListWalk stmts = []
  | _, [], _, _ => rfl
  | 0, s :: rest, hn, _ =>
      absurd hn (by simp only [List.cons.sizeOf_spec]; omega)
  | n + 1, s :: rest, hn, hfree => by
    rw [show importFreeList (s :: rest) =
      (importFree s && importFreeList rest) from rfl,
      Bool.and_eq_true] at hfree
    simp only [List.cons.sizeOf_spec] at hn
    rw [show importListWalk (s :: rest) =
      importStmtWalk s ++ importListWalk rest from rfl]
    rw [importListWalk_eq_nil n rest (by omega) hfree.2, List.append_nil]
    cases s with
    | importStmt d =>
      exact absurd hfree.1 (by simp [importFree])
    | block st sp stmts2 =>
      rw [show importStmtWalk (JStmt.block st sp stmts2) =
        importListWalk stmts2 from rfl]
      rw [show importFree (JStmt.block st sp stmts2) =
        importFreeList stmts2 from rfl] at hfree
      exact importListWalk_eq_nil n stmts2
        (by simp only [JStmt.block.sizeOf_spec] at hn ⊢; omega) hfree.1
    | varStmt k st sp ds => rfl
    | funcStmt st sp nm => rfl
    | classStmt st sp nm => rfl
    | exprStmt st sp est => rfl

theorem importStmtWalk_eq_nil (s : JStmt) (hfree : importFree s = true) :
    importStmtWalk s = [] := by
  cases s with
  | importStmt d => exact absurd hfree (by simp [importFree])
  | block st sp stmts2 =>
    rw [show importStmtWalk (JStmt.block st sp stmts2) =
      importListWalk stmts2 from rfl]
    rw [show importFree (JStmt.block st sp stmts2) =
      importFreeList stmts2 from rfl] at hfree
    exact importListWalk_eq_nil (sizeOf stmts2) stmts2 le_rfl hfree
  | varStmt k st sp ds => rfl
  | funcStmt st sp nm => rfl
  | classStmt st sp nm => rfl
  | exprStmt st sp est => rfl

theorem scopeList_ops_nil (body : JStmt) :
    ∀ (n : Nat) (stmts : List JStmt) (anc : List JStmt), sizeOf stmts ≤ n →
      declFreeList stmts = true → (scopeList body anc stmts).1 = []
  | _, [], _, _, _ => rfl
  | 0, s :: rest, _, hn, _ =>
      absurd hn (by simp only [List.cons.sizeOf_spec]; omega)
  | n + 1, s :: rest, anc, hn, hfree => by
    rw [show declFreeList (s :: rest) =
      (declFree s && declFreeList rest) from rfl,
      Bool.and_eq_true] at hfree
    simp only [List.cons.sizeOf_spec] at hn
    rw [show (scopeList body anc (s :: rest)).1 =
      (scopeStmt body anc s).1 ++ (scopeList body anc rest).1 from rfl]
    rw [scopeList_ops_nil body n rest anc (by omega) hfree.2, List.append_nil]
    cases s with
    | importStmt d => rfl
    | block st sp stmts2 =>
      rw [show (scopeStmt body anc (JStmt.block st sp stmts2)).1 =
        (scopeList body (anc ++ [JStmt.block st sp stmts2]) stmts2).1 from rfl]
      rw [show declFree (JStmt.block st sp stmts2) =
        declFreeList stmts2 from rfl] at hfree
      exact scopeList_ops_nil body n stmts2 _
        (by simp only [JStmt.block.sizeOf_spec] at hn ⊢; omega) hfree.1
    | varStmt k st sp ds =>
      exact absurd hfree.1 (by simp [declFree])
    | funcStmt st sp nm =>
      exact absurd hfree.1 (by simp [declFree])
    | classStmt st sp nm =>
      exact absurd hfree.1 (by simp [declFree])
    | exprStmt st sp est => rfl

theorem renderIdx_map_singleton (s : Source) :
    renderIdx (s.map fun c => (⟨[c]⟩ : EditNode)) = s.map SourceChar.char := by
  induction s with
  | nil => rfl
  | cons c rest ih => simp [renderIdx_cons, renderNode, ih]

theorem stratifyIdx_setSource (s : Source) :
    stratifyIdx (setSource s) = setSource s := by
  rw [stratifyIdx, getSource_setSource]

theorem wrapSrc_toList_ne_nil (src : String) : (wrapSrc src).toList ≠ [] := by
  rw [wrapSrc]
  intro h
  have : ((("(async (" ++ globalVar ++ ", " ++ importFn ++
      ", console) => \x7b\n") ++ src) ++ "\n\x7d)").data =
      ((("(async (" ++ globalVar ++ ", " ++ importFn ++
      ", console) => \x7b\n") ++ src).data ++ ("\n\x7d)").data) :=
    String.data_append _ _
  rw [show (("(async (" ++ globalVar ++ ", " ++ importFn ++
      ", console) => \x7b\n") ++ src ++ "\n\x7d)").toList =
    (("(async (" ++ globalVar ++ ", " ++ importFn ++
      ", console) => \x7b\n") ++ src ++ "\n\x7d)").data from rfl] at h
  rw [this] at h
  simp at h

theorem convertStr_length (s : String) :
    (convertStr s none).length = s.toList.length := by
  simp [convertStr, convertList]

/-- C6 (amended): for every cell whose wrapper-body AST contains no import
statements anywhere the import walk reaches and no
`var`/`let`/`const`/`function`/`class` declarations anywhere the scope walk
reaches (not merely none directly inside the wrapper body — see the
counterexample), `transpile(src)` equals the async-wrapped input text except
for the trailing-expression-to-return rewrite: when the wrapper body's last
statement is not an expression statement the output is exactly `wrapSrc src`,
and when it is an expression statement spanning `[st, est)` of the wrapped
text the output is the wrapped text with `return (` inserted at `st` and `)`
at `est`; all other characters, including the wrapper prefix and suffix, are
emitted unchanged. -/
theorem transpile_identity_no_decls (src : String) (body1 body2 : JStmt)
    (bst bsp : Nat) (stmts2 : List JStmt)
    (h1 : importFree body1 = true)
    (hbody2 : body2 = JStmt.block bst bsp stmts2)
    (h2 : declFreeList stmts2 = true) :
    ((∀ st sp est, stmts2.getLast? ≠ some (JStmt.exprStmt st sp est)) →
      transpile src body1 body2 = wrapSrc src) ∧
    (∀ st sp est, stmts2.getLast? = some (JStmt.exprStmt st sp est) →
      st < est → est ≤ (wrapSrc src).toList.length →
      transpile src body1 body2 =
        ⟨(wrapSrc src).toList.take st ++ ("return (").toList ++
          ((wrapSrc src).toList.drop st).take (est - st) ++ (")").toList ++
          (wrapSrc src).toList.drop est⟩) := by
  subst hbody2
  have hscope : (scopeStmt (JStmt.block bst bsp stmts2) []
      (JStmt.block bst bsp stmts2)).1 = [] := by
    rw [show (scopeStmt (JStmt.block bst bsp stmts2) []
        (JStmt.block bst bsp stmts2)).1 =
      (scopeList (JStmt.block bst bsp stmts2)
        ([] ++ [JStmt.block bst bsp stmts2]) stmts2).1 from rfl]
    exact scopeList_ops_nil _ (sizeOf stmts2) stmts2 _ le_rfl h2
  have hcore : transpile src body1 (JStmt.block bst bsp stmts2) =
      textIdx (applyOps (setSource (convertStr (wrapSrc src) none))
        (finalOps (JStmt.block bst bsp stmts2))) := by
    rw [transpile, importStmtWalk_eq_nil body1 h1]
    rw [show applyOps (setSource (convertStr (wrapSrc src) none)) [] =
      setSource (convertStr (wrapSrc src) none) from rfl]
    rw [stratifyIdx_setSource, hscope]
    rw [show applyOps (setSource (convertStr (wrapSrc src) none)) [] =
      setSource (convertStr (wrapSrc src) none) from rfl]
  constructor
  · intro hne
    have hf : finalOps (JStmt.block bst bsp stmts2) = [] := by
      rw [finalOps]
      rcases hl : stmts2.getLast? with _ | s
      · rfl
      · cases s with
        | exprStmt st sp est => exact absurd hl (hne st sp est)
        | importStmt d => rfl
        | varStmt k a b ds => rfl
        | funcStmt a b nm => rfl
        | classStmt a b nm => rfl
        | block a b ss => rfl
    rw [hcore, hf]
    rw [show applyOps (setSource (convertStr (wrapSrc src) none)) [] =
      setSource (convertStr (wrapSrc src) none) from rfl]
    rw [textIdx, getSource_setSource, convertStr_map_char]
    rfl
  · intro st sp est hlast hlt hle
    have hclen : (convertStr (wrapSrc src) none).length =
        (wrapSrc src).toList.length := convertStr_length _
    have hne : convertStr (wrapSrc src) none ≠ [] := by
      intro h
      apply wrapSrc_toList_ne_nil src
      have := congrArg List.length h
      rw [hclen] at this
      exact List.length_eq_zero.1 this
    have he0 : setSource (convertStr (wrapSrc src) none) =
        (convertStr (wrapSrc src) none).map fun c => (⟨[c]⟩ : EditNode) :=
      setSource_of_ne_nil _ hne
    set cv := convertStr (wrapSrc src) none with hcv
    have hsplit : cv = cv.take st ++ ((cv.drop st).take (est - st) ++
        cv.drop est) := by
      have h1 : cv.take st ++ cv.drop st = cv := List.take_append_drop st cv
      have h2 : (cv.drop st).take (est - st) ++ (cv.drop st).drop (est - st) =
          cv.drop st := List.take_append_drop _ _
      have h3 : (cv.drop st).drop (est - st) = cv.drop est := by
        rw [List.drop_drop]
        have h4 : st + (est - st) = est := by omega
        rw [h4]
      calc cv = List.take st cv ++ List.drop st cv := h1.symm
        _ = List.take st cv ++ (List.take (est - st) (List.drop st cv) ++
              List.drop (est - st) (List.drop st cv)) := by rw [h2]
        _ = List.take st cv ++ (List.take (est - st) (List.drop st cv) ++
              List.drop est cv) := by rw [h3]
    have hidx : setSource cv =
        ((cv.take st).map fun c => (⟨[c]⟩ : EditNode)) ++
        (((cv.drop st).take (est - st)).map fun c => (⟨[c]⟩ : EditNode)) ++
        ((cv.drop est).map fun c => (⟨[c]⟩ : EditNode)) := by
      rw [he0]
      conv_lhs => rw [hsplit]
      rw [List.map_append, List.map_append, List.append_assoc]
    have hA : ((cv.take st).map fun c => (⟨[c]⟩ : EditNode)).length = st := by
      rw [List.length_map, List.length_take, hclen]
      omega
    have hB : st +
        (((cv.drop st).take (est - st)).map
          fun c => (⟨[c]⟩ : EditNode)).length = est := by
      rw [List.length_map, List.length_take, List.length_drop, hclen]
      omega
    have hBne : (((cv.drop st).take (est - st)).map
        fun c => (⟨[c]⟩ : EditNode)) ≠ [] := by
      apply List.ne_nil_of_length_pos
      rw [List.length_map, List.length_take, List.length_drop, hclen]
      omega
    have hrender := finalOps_render bst bsp stmts2 (setSource cv)
      ((cv.take st).map fun c => (⟨[c]⟩ : EditNode))
      (((cv.drop st).take (est - st)).map fun c => (⟨[c]⟩ : EditNode))
      ((cv.drop est).map fun c => (⟨[c]⟩ : EditNode))
      st sp est hlast hidx hA hB hBne
    rw [hcore, textIdx_eq_mk_renderIdx, hrender,
      renderIdx_map_singleton, renderIdx_map_singleton, renderIdx_map_singleton,
      List.map_take, List.map_take, List.map_drop, List.map_drop,
      hcv, convertStr_map_char]

theorem transpile_identity_no_decls_witness :
    transpile "2+2"
      (JStmt.block 41 47 [JStmt.exprStmt 42 45 45])
      (JStmt.block 41 47 [JStmt.exprStmt 42 45 45]) =
    ⟨(wrapSrc "2+2").toList.take 42 ++ ("return (").toList ++
      ((wrapSrc "2+2").toList.drop 42).take (45 - 42) ++ (")").toList ++
      (wrapSrc "2+2").toList.drop 45⟩ :=
  (transpile_identity_no_decls "2+2"
      (JStmt.block 41 47 [JStmt.exprStmt 42 45 45])
      (JStmt.block 41 47 [JStmt.exprStmt 42 45 45])
      41 47 [JStmt.exprStmt 42 45 45]
      (by decide) rfl (by decide)).2
    42 45 45 rfl (by decide) (by decide)

/-- C6 counterexample to the claim as stated: the cell `\x7bvar x=1;\x7d`
has no import statements and no declaration directly at the top level of the
wrapper body (its only top-level statement is a block), yet `transpile` does
not leave the wrapped text unchanged: the block-nested `var` declaration is
still rewritten, producing
`(async (__global, __import, console) => \x7b\n\x7bvoid ((__global.x=1));\x7d\n\x7d)`
(and no trailing-return rewrite applies, the last statement being a block). -/
theorem transpile_nested_var_counterexample :
    importFree (JStmt.block 41 54 [JStmt.block 42 52
      [JStmt.varStmt VKind.kvar 43 51 [⟨47, 50, 47, true⟩]]]) = true ∧
    topLevelDeclFree [JStmt.block 42 52
      [JStmt.varStmt VKind.kvar 43 51 [⟨47, 50, 47, true⟩]]] = true ∧
    finalOps (JStmt.block 41 54 [JStmt.block 42 52
      [JStmt.varStmt VKind.kvar 43 51 [⟨47, 50, 47, true⟩]]]) = [] ∧
    transpile "\x7bvar x=1;\x7d"
      (JStmt.block 41 54 [JStmt.block 42 52
        [JStmt.varStmt VKind.kvar 43 51 [⟨47, 50, 47, true⟩]]])
      (JStmt.block 41 54 [JStmt.block 42 52
        [JStmt.varStmt VKind.kvar 43 51 [⟨47, 50, 47, true⟩]]]) =
      "(async (__global, __import, console) => \x7b\n\x7bvoid ((__global.x=1));\x7d\n\x7d)" ∧
    transpile "\x7bvar x=1;\x7d"
      (JStmt.block 41 54 [JStmt.block 42 52
        [JStmt.varStmt VKind.kvar 43 51 [⟨47, 50, 47, true⟩]]])
      (JStmt.block 41 54 [JStmt.block 42 52
        [JStmt.varStmt VKind.kvar 43 51 [⟨47, 50, 47, true⟩]]]) ≠
      wrapSrc "\x7bvar x=1;\x7d" := by
  refine ⟨by decide, by decide, by decide, by decide, by decide⟩
